import Mathlib

/-!
Verification development for the multi-version dropdown updater (`core.py`).

The Python source is shallowly embedded:
* `packaging.version.Version` (PEP 440) is modelled by `parseVersion` and its
  comparison key `vkey`, mirroring the library's parse grammar and `_cmpkey`.
* `sorting_key`, `sort_remaining_refs`, `separate_refs`, `generate_refs_dict`,
  `generate_markup`, `generate_dropdown_list` follow `core.py` lines 39-128.
  Python's `list.sort(key=..., reverse=True)` is the unique stable descending
  sort for the key order, embedded here by `List.insertionSort` with the
  relation "key of the left argument is at least the key of the right one"
  (insertion sort is stable for that relation, so it computes the same list).
* The lxml HTML tree is modelled by the rose tree `HNode`; the XPath queries
  and in-place mutations of `insert_versions_dropdown` (lines 131-224) become
  pure path-indexed functions. The external parse/serialize capabilities of
  lxml are parameters of `process_single_html_file`.
* `update_single_search_json` (lines 335-358) embeds `re.sub` with the
  escaped-literal pattern and negative lookahead as a left-to-right scan.
-/

/-! ## Sort keys: a model of PEP 440 versions and their comparison key

`packaging.version.Version(ref)` parses `ref` (case-insensitively, after
stripping surrounding whitespace) as
`v? (epoch!)? release pre? post? dev? (+local)?` and compares versions by the
tuple `(epoch, release with trailing zeros removed, pre, post, dev, local)`
where absent parts are replaced by plus/minus infinity sentinels.  Strings are
compared by code points, so the model uses `List Char` with the lexicographic
order (Lean's `Char` order is by code point, as in Python). -/

/-- One local-version segment key: numeric segments compare above string
segments (`packaging` maps ints to `(i, "")` and strings to `(-inf, s)`). -/
abbrev SegK := List Char ⊕ₗ Nat

/-- Key for the local version component: `⊥` when absent. -/
abbrev LocalK := WithBot (List SegK)

/-- Key for the dev component: `⊤` (infinity) when absent. -/
abbrev DevK := WithTop Nat

/-- Key for the post component: `⊥` (negative infinity) when absent. -/
abbrev PostK := WithBot Nat

/-- Key for the pre-release component: `⊥` for dev-only releases, `⊤` when the
version has no pre-release but is not dev-only, otherwise the normalized
(letter, number) pair. -/
abbrev PreK := WithBot (WithTop (Lex (List Char × Nat)))

/-- The full comparison key of a parsed version (`Version._cmpkey`). -/
abbrev VKey := Lex (Nat × Lex (List Nat × Lex (PreK × Lex (PostK × Lex (DevK × LocalK)))))

/-- The sort key returned by `sorting_key`: Python's `(0, Version(ref))` maps
to `Sum.inl` (ordered by the version key), `(1, ref)` to `Sum.inr` (ordered by
the string's code points); `Sum.Lex` makes every rank-0 key smaller than every
rank-1 key, exactly like comparing the tuples `(0, _) < (1, _)`. -/
abbrev SortKey := VKey ⊕ₗ List Char

/-- Python `\s` whitespace (ASCII part), used by the version regex anchors. -/
def isPySpace (c : Char) : Bool :=
  c = ' ' || c = '\t' || c = '\n' || c = '\r' || c = '\x0b' || c = '\x0c'

/-- ASCII lowercase, modelling the case-insensitive version regex. -/
def lcChar (c : Char) : Char :=
  if 'A' ≤ c && c ≤ 'Z' then Char.ofNat (c.toNat + 32) else c

/-- Numeric value of a digit string (`int(...)` on a `[0-9]+` match). -/
def digitsVal (ds : List Char) : Nat :=
  ds.foldl (fun n c => n * 10 + (c.toNat - 48)) 0

/-- A parsed PEP 440 version, as stored by `packaging.version.Version`. -/
structure PVersion where
  epoch : Nat
  release : List Nat
  pre : Option (List Char × Nat)
  post : Option Nat
  dev : Option Nat
  locseg : Option (List (List Char ⊕ Nat))
deriving DecidableEq, Repr

/-- Release parsing loop for `(\.[0-9]+)*` (fuel-bounded; the fuel is the
remaining text length, always sufficient). -/
def relLoop : Nat → List Nat → List Char → List Nat × List Char
  | 0, acc, l => (acc, l)
  | Nat.succ fuel, acc, l =>
    match l with
    | '.' :: r =>
      let ds := r.takeWhile Char.isDigit
      if ds.isEmpty then (acc, l)
      else relLoop fuel (acc ++ [digitsVal ds]) (r.dropWhile Char.isDigit)
    | _ => (acc, l)

/-- Parse the release segment `[0-9]+(\.[0-9]+)*`. -/
def parseRelease (l : List Char) : Option (List Nat × List Char) :=
  let ds := l.takeWhile Char.isDigit
  if ds.isEmpty then none
  else some (relLoop l.length [digitsVal ds] (l.dropWhile Char.isDigit))

/-- Consume one optional separator `[-_.]?`. -/
def sepOpt (l : List Char) : List Char :=
  match l with
  | c :: r => if c = '.' || c = '-' || c = '_' then r else l
  | [] => []

/-- Match one of the candidate labels (listed longest-first, which agrees with
the regex alternation since shorter prefixes of a longer label never let the
rest of the version parse). -/
def matchLabel : List (List Char) → List Char → Option (List Char × List Char)
  | [], _ => none
  | lab :: labs, l =>
    if lab.isPrefixOf l then some (lab, l.drop lab.length) else matchLabel labs l

/-- Normalize a pre-release label (`packaging`: alpha→a, beta→b,
c/pre/preview→rc). -/
def normPreLabel (lab : List Char) : List Char :=
  if lab = "alpha".data then "a".data
  else if lab = "beta".data then "b".data
  else if lab = "c".data || lab = "pre".data || lab = "preview".data then "rc".data
  else lab

/-- Parse `[-_.]?([0-9]+)?` after a label; a missing number is 0. -/
def numSuffix (l : List Char) : Nat × List Char :=
  let l1 := sepOpt l
  let ds := l1.takeWhile Char.isDigit
  (digitsVal ds, l1.dropWhile Char.isDigit)

/-- Parse the optional pre-release group. -/
def parsePre (l : List Char) : Option (List Char × Nat) × List Char :=
  match matchLabel ["alpha".data, "beta".data, "preview".data, "pre".data,
      "rc".data, "a".data, "b".data, "c".data] (sepOpt l) with
  | none => (none, l)
  | some (lab, rest) =>
    let (n, rest2) := numSuffix rest
    (some (normPreLabel lab, n), rest2)

/-- Parse the optional post group `(-[0-9]+) | ([-_.]?(post|rev|r)[-_.]?([0-9]+)?)`. -/
def parsePost (l : List Char) : Option Nat × List Char :=
  match matchLabel ["post".data, "rev".data, "r".data] (sepOpt l) with
  | some (_, rest) =>
    let (n, rest2) := numSuffix rest
    (some n, rest2)
  | none =>
    match l with
    | '-' :: r =>
      let ds := r.takeWhile Char.isDigit
      if ds.isEmpty then (none, l)
      else (some (digitsVal ds), r.dropWhile Char.isDigit)
    | _ => (none, l)

/-- Parse the optional dev group `[-_.]?dev[-_.]?([0-9]+)?`. -/
def parseDev (l : List Char) : Option Nat × List Char :=
  match matchLabel ["dev".data] (sepOpt l) with
  | none => (none, l)
  | some (_, rest) =>
    let (n, rest2) := numSuffix rest
    (some n, rest2)

/-- Characters allowed in a local version segment (after lowercasing). -/
def isLocalChar (c : Char) : Bool := c.isDigit || ('a' ≤ c && c ≤ 'z')

/-- Loop over `([-_.][a-z0-9]+)*` segments (fuel-bounded as in `relLoop`). -/
def localLoop : Nat → List (List Char) → List Char → List (List Char) × List Char
  | 0, acc, l => (acc, l)
  | Nat.succ fuel, acc, l =>
    match l with
    | c :: r =>
      if c = '.' || c = '-' || c = '_' then
        let ds := r.takeWhile isLocalChar
        if ds.isEmpty then (acc, l)
        else localLoop fuel (acc ++ [ds]) (r.dropWhile isLocalChar)
      else (acc, l)
    | [] => (acc, [])

/-- Normalize one local segment: all-digit segments become integers. -/
def normSeg (s : List Char) : List Char ⊕ Nat :=
  if s.all Char.isDigit then Sum.inr (digitsVal s) else Sum.inl s

/-- Parse the optional local version `\+[a-z0-9]+([-_.][a-z0-9]+)*`. -/
def parseLocal (l : List Char) : Option (List (List Char ⊕ Nat)) × List Char :=
  match l with
  | '+' :: r =>
    let s1 := r.takeWhile isLocalChar
    if s1.isEmpty then (none, l)
    else
      let (segs, rest) := localLoop r.length [s1] (r.dropWhile isLocalChar)
      (some (segs.map normSeg), rest)
  | _ => (none, l)

/-- Parse the optional epoch `([0-9]+!)?`. -/
def parseEpoch (l : List Char) : Nat × List Char :=
  let ds := l.takeWhile Char.isDigit
  if ds.isEmpty then (0, l)
  else
    match l.drop ds.length with
    | '!' :: r => (digitsVal ds, r)
    | _ => (0, l)

/-- The model of `packaging.version.Version(ref)`: `none` exactly when the
constructor raises `InvalidVersion`. -/
def parseVersion (s : String) : Option PVersion :=
  let l0 := s.data.map lcChar
  let l1 := l0.dropWhile isPySpace
  let l2 := (l1.reverse.dropWhile isPySpace).reverse
  let l3 := match l2 with | 'v' :: r => r | _ => l2
  let (ep, l4) := parseEpoch l3
  match parseRelease l4 with
  | none => none
  | some (rel, l5) =>
    let (pre, l6) := parsePre l5
    let (post, l7) := parsePost l6
    let (dev, l8) := parseDev l7
    let (loc, l9) := parseLocal l8
    if l9.isEmpty then some ⟨ep, rel, pre, post, dev, loc⟩ else none

/-- Release component of `_cmpkey`: trailing zeros removed. -/
def trimRel (rel : List Nat) : List Nat :=
  (rel.reverse.dropWhile (· = 0)).reverse

/-- Pre component of `_cmpkey` with its infinity sentinels. -/
def preKeyOf (v : PVersion) : PreK :=
  match v.pre with
  | some (l, n) => some (some (toLex (l, n)))
  | none => if v.post = none && v.dev.isSome then none else some none

/-- Post component of `_cmpkey` (`⊥` when absent). -/
def postKeyOf (v : PVersion) : PostK :=
  match v.post with
  | some n => some n
  | none => none

/-- Dev component of `_cmpkey` (`⊤`, i.e. `none` in `WithTop`, when absent). -/
def devKeyOf (v : PVersion) : DevK :=
  match v.dev with
  | some n => some n
  | none => none

/-- Local component of `_cmpkey` (`⊥` when absent). -/
def localKeyOf (v : PVersion) : LocalK :=
  match v.locseg with
  | some segs => some (segs.map (fun s => toLex s))
  | none => none

/-- The comparison key of a parsed version (`Version._cmpkey`). -/
def vkey (v : PVersion) : VKey :=
  toLex (v.epoch, toLex (trimRel v.release,
    toLex (preKeyOf v, toLex (postKeyOf v, toLex (devKeyOf v, localKeyOf v)))))

/-! ## core.py lines 39-128: ordering and markup -/

/-- core.py lines 52-62, `sorting_key`: `(0, Version(ref))` when the name
parses, `(1, ref)` on `InvalidVersion`. -/
def sorting_key (ref : String) : SortKey :=
  match parseVersion ref with
  | some v => toLex (Sum.inl (vkey v))
  | none => toLex (Sum.inr ref.data)

/-- The before-relation realized by `remaining_refs.sort(key=sorting_key,
reverse=True)`: `a` may precede `b` when `a`'s key is at least `b`'s. -/
def refsLE (a b : String) : Prop := sorting_key b ≤ sorting_key a

instance : DecidableRel refsLE := fun a b =>
  inferInstanceAs (Decidable (sorting_key b ≤ sorting_key a))

/-- core.py lines 65-74, `sort_remaining_refs`: Python's stable descending
sort by `sorting_key`.  A stable sort for a total preorder is unique, and
`List.insertionSort` is stable for `refsLE`, so it is the same function. -/
def sort_remaining_refs (remaining_refs : List String) : List String :=
  List.insertionSort refsLE remaining_refs

/-- core.py lines 39-49, `separate_refs`. -/
def separate_refs (matching_dirs refs_order : List String) :
    List String × List String :=
  (refs_order.filter (fun d => matching_dirs.contains d),
   matching_dirs.filter (fun d => !(refs_order.contains d)))

/-- The ordering pipeline of `generate_dropdown_list` (core.py lines 124-126):
`separate_refs`, then `sort_remaining_refs`, then `ordered_refs.extend(...)`. -/
def ordered_refs_full (matching_dirs refs_order : List String) : List String :=
  let p := separate_refs matching_dirs refs_order
  p.1 ++ sort_remaining_refs p.2

/-- core.py lines 77-85, `generate_refs_dict` (the dict keeps each ref's URL
`base_url + ref`; modelled as an association list in insertion order). -/
def generate_refs_dict (ordered_refs : List String) (base_url : String) :
    List (String × String) :=
  ordered_refs.map (fun ref => (ref, base_url ++ ref))

/-- Dictionary lookup `refs_dict[ref]` (total model; `generate_markup` is only
ever called with a dict built from the same list, where the key is present). -/
def refs_dict_get (d : List (String × String)) (k : String) : String :=
  match d.find? (fun kv => kv.1 = k) with
  | some kv => kv.2
  | none => ""

/-- The loop body of `generate_markup` (core.py lines 104-106), one `<a>` row
per reference, interpolated verbatim. -/
def markup_rows (refs_dict : List (String × String)) : List String → String
  | [] => ""
  | ref :: rest =>
    "<a class=\"dropdown-item\" data-toggle=\"tooltip\" title=\"\" href=\"" ++
      refs_dict_get refs_dict ref ++ "\">" ++ ref ++ "</a>\n" ++
      markup_rows refs_dict rest

/-- The fixed markup head of `generate_markup` (core.py lines 96-103). -/
def nav_item_intro : String :=
  "\n    <li class=\"nav-item dropdown\">\n    <a href=\"#\" class=\"nav-link dropdown-toggle\"\n        data-bs-toggle=\"dropdown\" role=\"button\"\n        aria-expanded=\"false\" aria-haspopup=\"true\"\n        id=\"dropdown-versions\">Versions</a>\n    <div class=\"dropdown-menu\" aria-labelledby=\"dropdown-versions\">\n    "

/-- core.py lines 88-108, `generate_markup`. -/
def generate_markup (ordered_refs : List String)
    (refs_dict : List (String × String)) : String :=
  nav_item_intro ++ markup_rows refs_dict ordered_refs ++ "</div></li>"

/-- core.py lines 111-128, `generate_dropdown_list`, after the external
directory listing and regex filter produced `matching_dirs`. -/
def generate_dropdown_list (matching_dirs refs_order : List String)
    (base_url : String) : String :=
  let refs := ordered_refs_full matching_dirs refs_order
  generate_markup refs (generate_refs_dict refs base_url)

/-! ## core.py lines 335-358: update_single_search_json

The statement `re.compile(rf"({re.escape(base_url)})(?!{re.escape(version)})")`
followed by `.sub(f"{base_url}{version}/", file_content)` replaces, scanning
left to right, each occurrence of the literal `base_url` that is not
immediately followed by the literal `version`, by `base_url + version + "/"`,
resuming the scan after the matched `base_url`; on a failed match the scan
advances one character.  (The replacement string contains no `re` escape
processing relevant to URLs; backslash escape handling of `re.sub` replacement
templates is not modelled.)  `subNFAux` is that scan for a non-empty
`base_url`; the fuel argument is the text length, which always suffices since
every step consumes at least one character. -/

/-- One pass of `url_pattern.sub` for a non-empty base URL `b0 :: brest`. -/
def subNFAux (b0 : Char) (brest v : List Char) : Nat → List Char → List Char
  | 0, l => l
  | _, [] => []
  | Nat.succ fuel, c :: rest =>
    if (b0 :: brest).isPrefixOf (c :: rest)
        && !(v.isPrefixOf (rest.drop brest.length)) then
      b0 :: brest ++ v ++ '/' :: subNFAux b0 brest v fuel (rest.drop brest.length)
    else c :: subNFAux b0 brest v fuel rest

/-- One pass of `url_pattern.sub` for an empty base URL: the pattern matches
the empty string at every position whose suffix does not start with `version`
(including the end of the text), inserting `version + "/"` there. -/
def subEmptyPat (v : List Char) : List Char → List Char
  | [] => if v.isPrefixOf [] then [] else v ++ ['/']
  | c :: rest =>
    (if v.isPrefixOf (c :: rest) then [c] else v ++ '/' :: [c]) ++ subEmptyPat v rest

/-- The substitution `url_pattern.sub(f"{base_url}{version}/", file_content)`
of core.py lines 348-349. -/
def url_sub (base_url version text : String) : String :=
  match base_url.data with
  | [] => String.mk (subEmptyPat version.data text.data)
  | b0 :: brest => String.mk (subNFAux b0 brest version.data text.data.length text.data)

/-- core.py lines 335-358, `update_single_search_json`, with the file read
modelled as the optional `content` and the write modelled by the returned
string: `(success flag, written content or none)`.  A changed substitution is
written back; an unchanged one is reported as a no-op with no write. -/
def update_single_search_json (content : Option String) (version base_url : String) :
    Bool × Option String :=
  match content with
  | none => (false, none)
  | some c =>
    let updated := url_sub base_url version c
    if updated ≠ c then (true, some updated) else (true, none)

/-- The substitution contract stated by the spec, as a relation between input
and output text: the output is the input with every left-to-right,
non-overlapping occurrence of `b` that is not immediately followed by `v`
replaced by `b ++ v ++ "/"`; a position where no such replacement applies is
copied verbatim (and a position where one applies may not be skipped). -/
inductive RewriteRel (b v : List Char) : List Char → List Char → Prop where
  | nil : RewriteRel b v [] []
  | head_replace (t o : List Char) : v.isPrefixOf t = false →
      RewriteRel b v t o → RewriteRel b v (b ++ t) (b ++ v ++ '/' :: o)
  | skip (c : Char) (t o : List Char) :
      (b.isPrefixOf (c :: t) = false ∨ v.isPrefixOf ((c :: t).drop b.length) = true) →
      RewriteRel b v t o → RewriteRel b v (c :: t) (c :: o)

/-! ## core.py lines 131-308: the navbar injector

An lxml element tree is modelled by the rose tree `HNode` (tag, attributes,
child elements).  Text content plays no role in any query or mutation the
source performs, so it is not carried.  The XPath queries become preorder
(document-order) traversals returning child-index paths; the in-place
mutations become pure rebuilds indexed by those paths.  Parsing text to a tree
and serializing a tree to text are capabilities of the external lxml library
(spec section 1) and are taken as function parameters. -/

/-- An HTML element: tag, attribute list, child elements. -/
inductive HNode where
  | elem (tag : String) (attrs : List (String × String)) (children : List HNode)
deriving Repr

mutual
def HNode.deq : (a b : HNode) → Decidable (a = b)
  | .elem t1 a1 c1, .elem t2 a2 c2 =>
    match decEq t1 t2 with
    | isFalse h => isFalse (by intro e; cases e; exact h rfl)
    | isTrue h1 =>
      match decEq a1 a2 with
      | isFalse h => isFalse (by intro e; cases e; exact h rfl)
      | isTrue h2 =>
        match HNode.deqL c1 c2 with
        | isFalse h => isFalse (by intro e; cases e; exact h rfl)
        | isTrue h3 => isTrue (by rw [h1, h2, h3])
def HNode.deqL : (a b : List HNode) → Decidable (a = b)
  | [], [] => isTrue rfl
  | [], _ :: _ => isFalse (by intro e; cases e)
  | _ :: _, [] => isFalse (by intro e; cases e)
  | x :: xs, y :: ys =>
    match HNode.deq x y with
    | isFalse h => isFalse (by intro e; cases e; exact h rfl)
    | isTrue h1 =>
      match HNode.deqL xs ys with
      | isFalse h => isFalse (by intro e; cases e; exact h rfl)
      | isTrue h2 => isTrue (by rw [h1, h2])
end

instance : DecidableEq HNode := HNode.deq

/-- The tag of an element. -/
def tagOf : HNode → String
  | .elem t _ _ => t

/-- The child elements of an element (lxml's element indexing). -/
def childrenOf : HNode → List HNode
  | .elem _ _ cs => cs

/-- Attribute lookup, `element.get(name)`. -/
def getAttr (n : HNode) (name : String) : Option String :=
  match n with
  | .elem _ attrs _ => (attrs.find? (fun kv => kv.1 = name)).map (fun kv => kv.2)

/-- The class attribute as XPath sees it: a missing attribute reads as "". -/
def classAttr (n : HNode) : String := (getAttr n "class").getD ""

/-- Substring test (XPath `contains`, Python `in`). -/
def hasSub (pat : List Char) : List Char → Bool
  | [] => pat.isEmpty
  | c :: rest => pat.isPrefixOf (c :: rest) || hasSub pat rest

/-- The `div[@id='navbar']` test of the `find_navbar` query (core.py line 139). -/
def isNavbarDiv (n : HNode) : Bool :=
  tagOf n = "div" && getAttr n "id" = some "navbar"

/-- The `ul[contains(@class, 'navbar-nav') and contains(@class, 'me-auto')]`
test of the `find_navbar` query. -/
def isNavbarUl (n : HNode) : Bool :=
  tagOf n = "ul" && hasSub "navbar-nav".data (classAttr n).data
    && hasSub "me-auto".data (classAttr n).data

/-- The `li[contains(@class, "nav-item")]` test of `find_navbar_items`
(core.py line 158). -/
def isNavItemLi (n : HNode) : Bool :=
  tagOf n = "li" && hasSub "nav-item".data (classAttr n).data

/-- The `div/@aria-labelledby="dropdown-versions"` test on one child: a `div`
carrying the reserved identity marker. -/
def surfDivMark (c : HNode) : Bool :=
  tagOf c = "div" && getAttr c "aria-labelledby" = some "dropdown-versions"

/-- The `li[div/@aria-labelledby="dropdown-versions"]` test of the existing
dropdown query (core.py line 197): a list item with a child `div` carrying the
reserved identity marker. -/
def isWidgetLi (n : HNode) : Bool :=
  tagOf n = "li" && (childrenOf n).any surfDivMark

mutual
/-- All nodes of the subtree rooted at `n` satisfying `pred`, with their
child-index paths, in document (preorder) order, including `n` itself at `[]`. -/
def descM (pred : HNode → Bool) (n : HNode) : List (List Nat × HNode) :=
  (if pred n then [(([] : List Nat), n)] else []) ++
    (match n with | .elem _ _ cs => descML pred 0 cs)
/-- `descM` over the child list starting at child index `i`. -/
def descML (pred : HNode → Bool) (i : Nat) (cs : List HNode) : List (List Nat × HNode) :=
  match cs with
  | [] => []
  | c :: rest => (descM pred c).map (fun pm => (i :: pm.1, pm.2)) ++ descML pred (i+1) rest
end

/-- An XPath `.//` query relative to `n`: matching proper descendants of `n`
in document order. -/
def xpathDesc (pred : HNode → Bool) (n : HNode) : List (List Nat × HNode) :=
  match n with
  | .elem _ _ cs => descML pred 0 cs

mutual
/-- Preorder search for the query of `find_navbar` (core.py lines 138-140):
the first `ul` with the navbar classes lying strictly below a `div` with id
`navbar`; `u` records whether such a `div` is a proper ancestor. -/
def fnb (u : Bool) (n : HNode) : Option (List Nat × HNode) :=
  if u && isNavbarUl n then some ([], n)
  else
    match n with
    | .elem _ _ cs => fnbL (u || isNavbarDiv n) 0 cs
/-- `fnb` over a child list starting at child index `i`. -/
def fnbL (u : Bool) (i : Nat) (cs : List HNode) : Option (List Nat × HNode) :=
  match cs with
  | [] => none
  | c :: rest =>
    match fnb u c with
    | some pm => some (i :: pm.1, pm.2)
    | none => fnbL u (i + 1) rest
end

/-- core.py lines 131-147, `find_navbar`: the first matching `ul` in document
order with its path, or `none` (the reported failure). -/
def find_navbar (tree : HNode) : Option (List Nat × HNode) := fnb false tree

/-- core.py lines 150-159, `find_navbar_items` (the guard
`if navbar or navbar is not None` is true for every element). -/
def find_navbar_items (navbar : HNode) : List (List Nat × HNode) :=
  xpathDesc isNavItemLi navbar

/-- The node of `t` at child-index path `p`. -/
def nodeAt (n : HNode) : List Nat → Option HNode
  | [] => some n
  | i :: p =>
    match (childrenOf n).get? i with
    | some c => nodeAt c p
    | none => none

/-- Replace the `i`-th element of a list. -/
def setChild : Nat → List HNode → HNode → List HNode
  | _, [], _ => []
  | 0, _ :: cs, x => x :: cs
  | Nat.succ i, c :: cs, x => c :: setChild i cs x

/-- Replace the subtree of `n` at path `p` by `x`. -/
def setAt (n : HNode) : List Nat → HNode → HNode
  | [], x => x
  | i :: p, x =>
    match n with
    | .elem t a cs =>
      match cs.get? i with
      | some c => .elem t a (setChild i cs (setAt c p x))
      | none => .elem t a cs

/-- The removal loop of core.py lines 209-216: walking the match list in
document order with the set of already-seen `id` attribute values, return the
paths of the matches that are removed (those whose id was already seen; the
first match is never removed). -/
def dedupeRemovedAux : List (Option String) → List (List Nat × HNode) → List (List Nat)
  | _, [] => []
  | seen, (p, n) :: rest =>
    let i := getAttr n "id"
    if seen.contains i then p :: dedupeRemovedAux seen rest
    else dedupeRemovedAux (i :: seen) rest

/-- Step a replacement path into child `i`. -/
def descendOpt : Option (List Nat) → Nat → Option (List Nat)
  | some (j :: q), i => if j = i then some q else none
  | _, _ => none

/-- Step a set of removal paths into child `i`. -/
def descendRem (rem : List (List Nat)) (i : Nat) : List (List Nat) :=
  rem.filterMap (fun p =>
    match p with
    | j :: q => if j = i then some q else none
    | [] => none)

mutual
/-- Rebuild a subtree applying the mutations of core.py lines 209-222: the
node at the (relative) path `firstP` is replaced by `frag` (its subtree
discarded wholesale, as `replace` does), a node at a path in `rem` is removed,
everything else is kept.  Replacement is checked first: in the source the
replacement happens last, so removals inside the replaced subtree do not
affect the final tree. -/
def rebuildN (frag : HNode) (firstP : Option (List Nat)) (rem : List (List Nat)) (n : HNode) :
    List HNode :=
  if firstP = some [] then [frag]
  else if rem.contains ([] : List Nat) then []
  else
    match n with
    | .elem t a cs => [.elem t a (rebuildL frag firstP rem 0 cs)]
/-- `rebuildN` over a child list starting at child index `i`. -/
def rebuildL (frag : HNode) (firstP : Option (List Nat)) (rem : List (List Nat)) (i : Nat)
    (cs : List HNode) : List HNode :=
  match cs with
  | [] => []
  | c :: rest =>
    rebuildN frag (descendOpt firstP i) (descendRem rem i) c ++
      rebuildL frag firstP rem (i + 1) rest
end

/-- Rebuild the navbar itself.  The navbar is never one of the matches (the
query is `.//`, proper descendants only), so the root-level replacement and
removal checks of `rebuildN` cannot fire and are bypassed. -/
def rebuildTop (frag : HNode) (firstP : List Nat) (rem : List (List Nat)) (n : HNode) : HNode :=
  match n with
  | .elem t a cs => .elem t a (rebuildL frag (some firstP) rem 0 cs)

/-- The insertion branch of core.py lines 200-206: a fresh childless `div`
wrapper receives the parsed fragment and is attached after the navbar's last
child (`navbar[-1].addnext(new_li)`). -/
def appendWrapped (navbar frag : HNode) : HNode :=
  match navbar with
  | .elem t a cs => .elem t a (cs ++ [.elem "div" [] [frag]])

/-- core.py lines 176-224, `insert_versions_dropdown`.  `parseFrag` is the
external `html.fromstring` capability used by `create_versions_dropdown`
(lines 162-173, returning `none` on a parse error).  Returns the mutated tree
on success (`True`), `none` on failure (`False`, tree untouched).  The guards
`if not navbar` and `if not versions_dropdown` use lxml element truthiness:
an element with no children is falsy. -/
def insert_versions_dropdown (parseFrag : String → Option HNode) (tree : HNode)
    (dropdown_list : String) : Option HNode :=
  match find_navbar tree with
  | none => none
  | some (navPath, navbar) =>
    if (childrenOf navbar).isEmpty then none
    else if (find_navbar_items navbar).isEmpty then none
    else
      match parseFrag dropdown_list with
      | none => none
      | some frag =>
        if (childrenOf frag).isEmpty then none
        else
          match xpathDesc isWidgetLi navbar with
          | [] => some (setAt tree navPath (appendWrapped navbar frag))
          | (p0, m0) :: rest =>
            let rem := dedupeRemovedAux [] ((p0, m0) :: rest)
            some (setAt tree navPath (rebuildTop frag p0 rem navbar))

/-- The literal document-type line of core.py line 299. -/
def doctypeStr : String := "<!DOCTYPE html>\n"

/-- The literal generator comment of core.py line 300. -/
def commentStr : String :=
  "<!-- Generated by pkgdown + https://github.com/insightsengineering/r-pkgdown-multiversion -->\n"

/-- core.py lines 276-308, `process_single_html_file`.  `parse` and
`serialize` are the external lxml capabilities (`html.fromstring` and
`etree.tostring`); the file read is the optional `content`, and the write is
the second component of the result: `(success flag, written text or none)`. -/
def process_single_html_file (parse : String → Option HNode) (serialize : HNode → String)
    (parseFrag : String → Option HNode) (content : Option String) (dropdown_list : String) :
    Bool × Option String :=
  match content with
  | none => (false, none)
  | some c =>
    match parse c with
    | none => (false, none)
    | some tree =>
      match insert_versions_dropdown parseFrag tree dropdown_list with
      | none => (false, none)
      | some tree2 => (true, some (doctypeStr ++ commentStr ++ serialize tree2))

mutual
/-- A concrete injective-enough serialization of `HNode`, used to instantiate
the external serialize capability in closed statements. -/
def serializeSimple : HNode → String
  | .elem t a cs =>
    "<" ++ t ++ String.join (a.map (fun kv => " " ++ kv.1 ++ "=\"" ++ kv.2 ++ "\"")) ++
      ">" ++ serializeList cs ++ "</" ++ t ++ ">"
/-- `serializeSimple` over a child list. -/
def serializeList : List HNode → String
  | [] => ""
  | c :: cs => serializeSimple c ++ serializeList cs
end

/-! ### Concrete pages used in closed statements -/

/-- A navbar `ul` with the classes matched by the `find_navbar` query. -/
def navbarUl (items : List HNode) : HNode :=
  .elem "ul" [("class", "navbar-nav me-auto")] items

/-- A minimal page: the navbar `ul` inside the `div[@id='navbar']`. -/
def mkPage (items : List HNode) : HNode :=
  .elem "div" [("id", "navbar")] [navbarUl items]

/-- A widget list item (a `li` wrapping the marker `div`), with the given
attributes on the `li`. -/
def widgetLi (attrs : List (String × String)) : HNode :=
  .elem "li" attrs [.elem "div" [("aria-labelledby", "dropdown-versions")] []]

/-- An ordinary navigation item. -/
def navLi : HNode := .elem "li" [("class", "nav-item")] []

/-- The freshly parsed dropdown fragment used in the closed scenarios: shaped
like the markup of `create_versions_dropdown` (a `li.nav-item.dropdown`
holding the marker `div`). -/
def freshWidget : HNode :=
  .elem "li" [("class", "nav-item dropdown")]
    [.elem "div" [("aria-labelledby", "dropdown-versions")] []]

/-- A page with two stale widgets carrying distinct `id` attributes. -/
def pageMixedIds : HNode := mkPage [navLi, widgetLi [("id", "a")], widgetLi []]

/-- `pageMixedIds` after one injector run: the first widget is replaced, the
second survives because its `id` differs from the first's. -/
def pageMixedIds1 : HNode := mkPage [navLi, freshWidget, widgetLi []]

/-- A parse stub for the two-run scenario on `pageMixedIds`: the original file
content and the output of the first run each parse to their tree. -/
def cexParse : String → Option HNode := fun s =>
  if s = "p0" then some pageMixedIds
  else if s = doctypeStr ++ commentStr ++ serializeSimple pageMixedIds1 then some pageMixedIds1
  else none

/-- A page with no widget at all. -/
def pagePlain : HNode := mkPage [navLi]

/-- `pagePlain` after one injector run: the wrapped fragment is appended after
the last navbar child. -/
def pagePlain1 : HNode := mkPage [navLi, .elem "div" [] [freshWidget]]

/-- A parse stub for the two-run scenario on `pagePlain`. -/
def plainParse : String → Option HNode := fun s =>
  if s = "q0" then some pagePlain
  else if s = doctypeStr ++ commentStr ++ serializeSimple pagePlain1 then some pagePlain1
  else none

/-- A page with three stale widgets, none carrying an `id`. -/
def pageThreeWidgets : HNode := mkPage [navLi, widgetLi [], widgetLi [], widgetLi []]

/-- A navbar with a child but no `li` with the `nav-item` class. -/
def noItemsUl : HNode := navbarUl [.elem "span" [] []]

/-- A page whose navbar is found but holds no navigation items. -/
def noItemsPage : HNode := .elem "div" [("id", "navbar")] [noItemsUl]

/-! ## Facts about the ordering pipeline -/

instance : IsTotal String refsLE :=
  ⟨fun a b => le_total (sorting_key b) (sorting_key a)⟩

instance : IsTrans String refsLE :=
  ⟨fun _ _ _ hab hbc => le_trans hbc hab⟩

theorem sort_remaining_sorted (l : List String) :
    (sort_remaining_refs l).Pairwise refsLE :=
  List.sorted_insertionSort refsLE l

theorem sort_remaining_perm (l : List String) :
    List.Perm (sort_remaining_refs l) l :=
  List.perm_insertionSort refsLE l

theorem sort_remaining_strict (l : List String)
    (hdist : l.Pairwise fun a b => sorting_key a ≠ sorting_key b) :
    (sort_remaining_refs l).Pairwise fun a b => sorting_key b < sorting_key a := by
  have h1 := sort_remaining_sorted l
  have h2 : (sort_remaining_refs l).Pairwise fun a b => sorting_key a ≠ sorting_key b :=
    ((sort_remaining_perm l).pairwise_iff fun h e => h e.symm).mpr hdist
  exact (h1.and h2).imp fun h => lt_of_le_of_ne h.1 fun e => h.2 e.symm

/-- C2 counterexample: on the remainder list `["1.0.0", "apple"]` the code
places the unparseable name `"apple"` first, so the claim that all parseable
names precede all unparseable ones is false as stated: `reverse=True` sorts
keys descending and every rank-1 key `(1, name)` exceeds every rank-0 key
`(0, version)`. -/
theorem claim_sort_rank_order_counterexample :
    sort_remaining_refs ["1.0.0", "apple"] = ["apple", "1.0.0"] ∧
    (parseVersion "1.0.0").isSome = true ∧ parseVersion "apple" = none ∧
    ¬ (sort_remaining_refs ["1.0.0", "apple"]).Pairwise
        (fun a b => parseVersion a = none → parseVersion b = none) :=
  ⟨by decide, by decide, by decide, by decide⟩

/-- C2 (amended): for a remainder list containing both parseable and
unparseable names, with no two names of equal sort key, `sort_remaining_refs`
places all unparseable names before all parseable ones, the unparseable names
strictly descending by code-point order and the parseable names strictly
descending by version precedence. -/
theorem claim_sort_rank_order (l : List String)
    (hmix : (∃ x ∈ l, (parseVersion x).isSome = true) ∧ ∃ x ∈ l, parseVersion x = none)
    (hdist : l.Pairwise fun a b => sorting_key a ≠ sorting_key b) :
    (sort_remaining_refs l).Pairwise
        (fun a b => (parseVersion a).isSome = true → (parseVersion b).isSome = true) ∧
    ((sort_remaining_refs l).filter fun x => (parseVersion x).isNone).Pairwise
        (fun a b => b.data < a.data) ∧
    ((sort_remaining_refs l).filter fun x => (parseVersion x).isSome).Pairwise
        (fun a b => ∀ va vb, parseVersion a = some va → parseVersion b = some vb →
          vkey vb < vkey va) := by
  have hs := sort_remaining_strict l hdist
  refine ⟨?_, ?_, ?_⟩
  · refine hs.imp ?_
    intro a b hlt hpa
    cases hb : parseVersion b with
    | some vb => simp
    | none =>
      cases ha : parseVersion a with
      | none => rw [ha] at hpa; simp at hpa
      | some va =>
        exfalso
        simp only [sorting_key, ha, hb] at hlt
        exact Sum.Lex.not_inr_lt_inl hlt
  · refine List.Pairwise.imp_of_mem ?_ (List.Pairwise.sublist (List.filter_sublist _) hs)
    intro a b ha hb hlt
    have hpa := Option.isNone_iff_eq_none.mp (by simpa using (List.mem_filter.mp ha).2)
    have hpb := Option.isNone_iff_eq_none.mp (by simpa using (List.mem_filter.mp hb).2)
    simp only [sorting_key, hpa, hpb] at hlt
    exact Sum.Lex.inr_lt_inr_iff.mp hlt
  · refine List.Pairwise.imp ?_ (List.Pairwise.sublist (List.filter_sublist _) hs)
    intro a b hlt va vb hva hvb
    simp only [sorting_key, hva, hvb] at hlt
    exact Sum.Lex.inl_lt_inl_iff.mp hlt

/-- C2 witness: a concrete mixed remainder list with pairwise distinct keys. -/
theorem claim_sort_rank_order_witness :
    ((["main", "1.0.0", "devel"] : List String).Pairwise
        fun a b => sorting_key a ≠ sorting_key b) ∧
    (sort_remaining_refs ["main", "1.0.0", "devel"]).Pairwise
        (fun a b => (parseVersion a).isSome = true → (parseVersion b).isSome = true) :=
  ⟨by decide,
    (claim_sort_rank_order ["main", "1.0.0", "devel"]
      ⟨⟨"1.0.0", by decide, by decide⟩, ⟨"main", by decide, by decide⟩⟩ (by decide)).1⟩

/-- C3 counterexample: a priority list with a duplicate entry present in the
candidates is copied into the output twice — `separate_refs` does not
deduplicate, so the output can contain duplicate names. -/
theorem claim_priority_prefix_counterexample :
    ordered_refs_full ["main"] ["main", "main"] = ["main", "main"] ∧
    ¬ (ordered_refs_full ["main"] ["main", "main"]).Nodup :=
  ⟨by decide, by decide⟩

/-- C3 (amended): for every candidate list and priority list the output starts
with the priority list restricted to names present in the candidates, in the
priority list's order; and provided the candidate list and the priority list
are each duplicate-free, the whole output contains no duplicate names. -/
theorem claim_priority_prefix_nodup (dirs priority : List String) :
    (ordered_refs_full dirs priority).take
        (priority.filter fun d => dirs.contains d).length
      = priority.filter (fun d => dirs.contains d) ∧
    (dirs.Nodup → priority.Nodup → (ordered_refs_full dirs priority).Nodup) := by
  constructor
  · simp only [ordered_refs_full, separate_refs]
    exact List.take_left _ _
  · intro hd hp
    simp only [ordered_refs_full, separate_refs]
    apply List.Nodup.append
    · exact hp.filter _
    · exact (hd.filter _).perm (sort_remaining_perm _).symm
    · intro a ha hb
      have h1 : a ∈ priority := (List.mem_filter.mp ha).1
      have h2 := (List.mem_filter.mp (((sort_remaining_perm _).mem_iff).mp hb)).2
      simp only [List.contains, List.elem_eq_mem, Bool.not_eq_true',
        decide_eq_false_iff_not] at h2
      exact h2 h1

/-- C3 witness: the worked example of the spec, with duplicate-free inputs. -/
theorem claim_priority_prefix_nodup_witness :
    (ordered_refs_full ["v2.0.0", "v1.0.0", "v1.5.3", "main"] ["main", "v2.0.0"]).take 2
        = ["main", "v2.0.0"] ∧
    (ordered_refs_full ["v2.0.0", "v1.0.0", "v1.5.3", "main"] ["main", "v2.0.0"]).Nodup :=
  ⟨by decide,
    (claim_priority_prefix_nodup ["v2.0.0", "v1.0.0", "v1.5.3", "main"]
      ["main", "v2.0.0"]).2 (by decide) (by decide)⟩

/-- C5: `sorting_key` is total — an unparseable name gets the lexical rank-1
fallback key instead of raising — and the sort of a remainder list containing
an unparseable name is still a permutation of the input, sorted by key, and in
particular the names other than the unparseable one are still correctly
ordered among themselves. -/
theorem claim_sorting_key_total (l : List String) (x : String)
    (hx : parseVersion x = none) (hmem : x ∈ l) :
    sorting_key x = toLex (Sum.inr x.data) ∧
    List.Perm (sort_remaining_refs l) l ∧
    (sort_remaining_refs l).Pairwise refsLE ∧
    ((sort_remaining_refs l).filter fun y => y ≠ x).Pairwise refsLE :=
  ⟨by simp [sorting_key, hx], sort_remaining_perm l, sort_remaining_sorted l,
    List.Pairwise.sublist (List.filter_sublist _) (sort_remaining_sorted l)⟩

/-- C5 witness. -/
theorem claim_sorting_key_total_witness :
    parseVersion "main" = none ∧ "main" ∈ (["1.0.0", "main", "2.0.0"] : List String) ∧
    sorting_key "main" = toLex (Sum.inr "main".data) ∧
    List.Perm (sort_remaining_refs ["1.0.0", "main", "2.0.0"]) ["1.0.0", "main", "2.0.0"] :=
  ⟨by decide, by decide,
    (claim_sorting_key_total ["1.0.0", "main", "2.0.0"] "main" (by decide) (by decide)).1,
    (claim_sorting_key_total ["1.0.0", "main", "2.0.0"] "main" (by decide) (by decide)).2.1⟩

/-- Two sorted lists that are permutations of each other with injective sort
keys are equal.  (For lists with a key tie the stable sort preserves the
different input orders, which is the determinism counterexample.) -/
theorem eq_of_sorted_perm_injkeys (l1 : List String) :
    ∀ l2, List.Perm l1 l2 → l1.Pairwise refsLE → l2.Pairwise refsLE →
      (∀ a ∈ l1, ∀ b ∈ l1, sorting_key a = sorting_key b → a = b) → l1 = l2 := by
  induction l1 with
  | nil =>
    intro l2 hp _ _ _
    exact (hp.symm.eq_nil).symm
  | cons a t1 ih =>
    intro l2 hp h1 h2 hinj
    cases l2 with
    | nil => exact absurd hp.eq_nil (by simp)
    | cons b t2 =>
      by_cases hab : a = b
      · subst hab
        have ht := ih t2 hp.cons_inv h1.of_cons h2.of_cons
          (fun x hx y hy => hinj x (List.mem_cons_of_mem _ hx) y (List.mem_cons_of_mem _ hy))
        rw [ht]
      · exfalso
        have hb1 : b ∈ a :: t1 := hp.symm.subset (List.mem_cons_self b t2)
        have ha2 : a ∈ b :: t2 := hp.subset (List.mem_cons_self a t1)
        have hbmem : b ∈ t1 := (List.mem_cons.mp hb1).resolve_left fun e => hab e.symm
        have hamem : a ∈ t2 := (List.mem_cons.mp ha2).resolve_left hab
        have hle1 : refsLE a b := (List.pairwise_cons.mp h1).1 b hbmem
        have hle2 : refsLE b a := (List.pairwise_cons.mp h2).1 a hamem
        exact hab (hinj a (List.mem_cons_self a t1) b hb1 (le_antisymm hle2 hle1))

/-- C7 counterexample: two listings of the same candidate set in different
orders produce different outputs, because `"1.0"` and `"1.0.0"` are distinct
names with equal version precedence and the stable sort keeps them in their
input order. -/
theorem claim_order_determinism_counterexample :
    List.Perm ["1.0", "1.0.0"] (["1.0.0", "1.0"] : List String) ∧
    ordered_refs_full ["1.0", "1.0.0"] [] ≠ ordered_refs_full ["1.0.0", "1.0"] [] :=
  ⟨by decide, by decide⟩

/-- C7 (amended): when no two distinct candidate names share a sort key, the
ordering pipeline is a function of the candidate set alone: two listings of
the same set in different orders produce the same ordered output. -/
theorem claim_order_determinism (dirs1 dirs2 priority : List String)
    (hperm : List.Perm dirs1 dirs2)
    (hinj : ∀ a ∈ dirs1, ∀ b ∈ dirs1, sorting_key a = sorting_key b → a = b) :
    ordered_refs_full dirs1 priority = ordered_refs_full dirs2 priority := by
  simp only [ordered_refs_full, separate_refs]
  have hmem : ∀ a : String, a ∈ dirs1 ↔ a ∈ dirs2 := fun a => hperm.mem_iff
  congr 1
  · apply List.filter_congr
    intro a _
    simp only [List.contains, List.elem_eq_mem, hmem a]
  · apply eq_of_sorted_perm_injkeys
    · exact ((sort_remaining_perm _).trans (hperm.filter _)).trans (sort_remaining_perm _).symm
    · exact sort_remaining_sorted _
    · exact sort_remaining_sorted _
    · intro a ha b hb
      have ha' := (List.mem_filter.mp (((sort_remaining_perm _).mem_iff).mp ha)).1
      have hb' := (List.mem_filter.mp (((sort_remaining_perm _).mem_iff).mp hb)).1
      exact hinj a ha' b hb'

/-- C7 witness: the spec's worked example listed in two different orders. -/
theorem claim_order_determinism_witness :
    ordered_refs_full ["v2.0.0", "v1.0.0", "v1.5.3", "main"] ["main", "v2.0.0"]
      = ordered_refs_full ["main", "v1.5.3", "v1.0.0", "v2.0.0"] ["main", "v2.0.0"] :=
  claim_order_determinism _ _ _ (by decide) (by decide)

/-! ## Facts about markup generation -/

theorem isPrefixOf_append_self : ∀ (p w : List Char), p.isPrefixOf (p ++ w) = true := by
  intro p w
  induction p with
  | nil => simp [List.isPrefixOf]
  | cons c q ih => simp [List.isPrefixOf, ih]

theorem hasSub_here (p w : List Char) : hasSub p (p ++ w) = true := by
  cases p with
  | nil => cases w <;> simp [hasSub, List.isPrefixOf]
  | cons c q => simp [hasSub, isPrefixOf_append_self]

theorem hasSub_cons (p : List Char) (c : Char) (l : List Char)
    (h : hasSub p l = true) : hasSub p (c :: l) = true := by
  simp [hasSub, h]

theorem hasSub_append_left (u p l : List Char) (h : hasSub p l = true) :
    hasSub p (u ++ l) = true := by
  induction u with
  | nil => exact h
  | cons c v ih => exact hasSub_cons _ _ _ ih

theorem hasSub_of_parts (p l u w : List Char) (h : l = u ++ (p ++ w)) :
    hasSub p l = true := by
  subst h
  exact hasSub_append_left _ _ _ (hasSub_here _ _)

theorem refs_dict_get_mem (refs : List String) (base ref : String) (h : ref ∈ refs) :
    refs_dict_get (generate_refs_dict refs base) ref = base ++ ref := by
  induction refs with
  | nil => cases h
  | cons r rs ih =>
    by_cases hr : r = ref
    · subst hr
      simp [generate_refs_dict, refs_dict_get, List.find?]
    · have hm : ref ∈ rs := (List.mem_cons.mp h).resolve_left fun e => hr e.symm
      show refs_dict_get (generate_refs_dict (r :: rs) base) ref = base ++ ref
      simp only [generate_refs_dict, List.map_cons]
      rw [refs_dict_get, List.find?_cons_of_neg _ (by simpa using hr)]
      exact ih hm

theorem markup_rows_data_split (d : List (String × String)) (ref : String) :
    ∀ (s t : List String),
      (markup_rows d (s ++ ref :: t)).data =
        (markup_rows d s).data ++
          ("<a class=\"dropdown-item\" data-toggle=\"tooltip\" title=\"\" href=\"".data ++
            ((refs_dict_get d ref).data ++ ("\">".data ++ (ref.data ++ ("</a>\n".data ++
              (markup_rows d t).data))))) := by
  intro s t
  induction s with
  | nil => simp [markup_rows, String.data_append]
  | cons r rs ih => simp [markup_rows, String.data_append, ih]

set_option maxRecDepth 40000 in
/-- C8 counterexample: with the reference name `"<script>"` the generated
markup contains the raw composed URL and the raw name — including the
markup-significant characters `<` and `>` — and contains no entity escape, so
the claim that names and URLs are escaped is false on this code. -/
theorem claim_markup_escaped_counterexample :
    hasSub "https://x/<script>\"><script></a>".data
      (generate_markup ["<script>"] (generate_refs_dict ["<script>"] "https://x/")).data
        = true ∧
    hasSub "&lt;".data
      (generate_markup ["<script>"] (generate_refs_dict ["<script>"] "https://x/")).data
        = false :=
  ⟨by decide, by decide⟩

/-- C8 (amended): `generate_markup` interpolates every reference name and its
composed URL verbatim, without any escaping: for every reference in the list,
the markup contains the unescaped substring
`base_url ++ ref ++ "\">" ++ ref ++ "</a>\n"`. -/
theorem claim_markup_verbatim (refs : List String) (base_url ref : String)
    (h : ref ∈ refs) :
    hasSub (base_url ++ ref ++ "\">" ++ ref ++ "</a>\n").data
      (generate_markup refs (generate_refs_dict refs base_url)).data = true := by
  obtain ⟨s, t, rfl⟩ := List.append_of_mem h
  apply hasSub_of_parts _ _
    (nav_item_intro.data ++ ((markup_rows (generate_refs_dict (s ++ ref :: t) base_url) s).data
      ++ "<a class=\"dropdown-item\" data-toggle=\"tooltip\" title=\"\" href=\"".data))
    ((markup_rows (generate_refs_dict (s ++ ref :: t) base_url) t).data ++ "</div></li>".data)
  rw [generate_markup]
  simp only [String.data_append]
  rw [markup_rows_data_split]
  rw [refs_dict_get_mem _ _ _ (by simp)]
  simp [String.data_append, List.append_assoc]

/-- C8 witness. -/
theorem claim_markup_verbatim_witness :
    "v1.0.0" ∈ (["v1.0.0"] : List String) ∧
    hasSub ("https://x/" ++ "v1.0.0" ++ "\">" ++ "v1.0.0" ++ "</a>\n").data
      (generate_markup ["v1.0.0"] (generate_refs_dict ["v1.0.0"] "https://x/")).data = true :=
  ⟨by decide, claim_markup_verbatim ["v1.0.0"] "https://x/" "v1.0.0" (by decide)⟩

/-! ## Facts about the search-index rewriter -/

theorem eq_append_drop_of_isPrefixOf :
    ∀ (p l : List Char), p.isPrefixOf l = true → l = p ++ l.drop p.length := by
  intro p
  induction p with
  | nil => intro l _; simp
  | cons c q ih =>
    intro l hp
    cases l with
    | nil => simp [List.isPrefixOf] at hp
    | cons d r =>
      simp only [List.isPrefixOf, Bool.and_eq_true, beq_iff_eq] at hp
      obtain ⟨h1, h2⟩ := hp
      subst h1
      simp only [List.length_cons, List.drop_succ_cons, List.cons_append, List.cons.injEq,
        true_and]
      exact ih r h2

theorem subNFAux_rewrites (b0 : Char) (brest v : List Char) :
    ∀ (fuel : Nat) (t : List Char), t.length ≤ fuel →
      RewriteRel (b0 :: brest) v t (subNFAux b0 brest v fuel t) := by
  intro fuel
  induction fuel with
  | zero =>
    intro t ht
    have : t = [] := List.eq_nil_of_length_eq_zero (Nat.le_zero.mp ht)
    subst this
    exact RewriteRel.nil
  | succ fuel ih =>
    intro t ht
    cases t with
    | nil => exact RewriteRel.nil
    | cons c rest =>
      by_cases hcond :
          ((b0 :: brest).isPrefixOf (c :: rest) && !(v.isPrefixOf (rest.drop brest.length)))
            = true
      · rw [subNFAux, if_pos hcond]
        obtain ⟨hpre, hlook⟩ := Bool.and_eq_true_iff.mp hcond
        have hlook' : v.isPrefixOf (rest.drop brest.length) = false := by
          simpa using hlook
        have ht' : rest.length ≤ fuel := by
          have h := ht
          simp only [List.length_cons] at h
          omega
        have hdec := eq_append_drop_of_isPrefixOf _ _ hpre
        rw [List.length_cons, List.drop_succ_cons] at hdec
        rw [hdec]
        exact RewriteRel.head_replace _ _ hlook'
          (ih _ (by rw [List.length_drop]; omega))
      · rw [subNFAux, if_neg hcond]
        have ht' : rest.length ≤ fuel := by
          have h := ht
          simp only [List.length_cons] at h
          omega
        refine RewriteRel.skip c rest _ ?_ (ih rest ht')
        simp only [Bool.and_eq_true, Bool.not_eq_true', not_and] at hcond
        by_cases hp : (b0 :: brest).isPrefixOf (c :: rest) = true
        · right
          rw [List.length_cons, List.drop_succ_cons]
          have h2 := hcond hp
          simpa using h2
        · left
          exact Bool.eq_false_iff.mpr hp

/-- C6: `update_single_search_json` performs the contract substitution: for a
non-empty base URL, the rewritten text is related to the input by
`RewriteRel`, which replaces exactly the left-to-right non-overlapping
occurrences of the base URL not immediately followed by the version, inserting
`version ++ "/"` right after the base URL; on the spec's example
`"https://x/page"` becomes `"https://x/v1.0.0/page"` and is written, while a
text already containing the version is left unchanged and the write is skipped
as a reported no-op. -/
theorem claim_search_json_rewrite :
    (∀ (b0 : Char) (brest : List Char) (v t : String),
        RewriteRel (b0 :: brest) v.data t.data
          (url_sub (String.mk (b0 :: brest)) v t).data) ∧
    url_sub "https://x/" "v1.0.0" "https://x/page" = "https://x/v1.0.0/page" ∧
    url_sub "https://x/" "v1.0.0" "https://x/v1.0.0/page" = "https://x/v1.0.0/page" ∧
    update_single_search_json (some "https://x/page") "v1.0.0" "https://x/"
      = (true, some "https://x/v1.0.0/page") ∧
    update_single_search_json (some "https://x/v1.0.0/page") "v1.0.0" "https://x/"
      = (true, none) := by
  refine ⟨?_, by decide, by decide, by decide, by decide⟩
  intro b0 brest v t
  exact subNFAux_rewrites b0 brest v.data t.data.length t.data (Nat.le_refl _)

/-! ## Facts about the tree queries -/

mutual

theorem mem_descM (pred : HNode → Bool) :
    ∀ (n : HNode) (pm : List Nat × HNode),
      (pm ∈ descM pred n ↔ (nodeAt n pm.1 = some pm.2 ∧ pred pm.2 = true))
  | .elem t a cs, pm => by
    rw [descM, List.mem_append]
    constructor
    · rintro (h1 | h2)
      · split at h1
        next hp =>
          simp only [List.mem_singleton] at h1
          rw [h1]
          exact ⟨rfl, hp⟩
        next hp => simp at h1
      · obtain ⟨j, q, c, hpq, hget, hnode, hpred⟩ := (mem_descML pred cs 0 pm).mp h2
        refine ⟨?_, hpred⟩
        rw [hpq, Nat.zero_add, nodeAt]
        simp only [childrenOf, hget]
        exact hnode
    · rintro ⟨hnode, hpred⟩
      rcases pm with ⟨p, m⟩
      dsimp only at hnode hpred ⊢
      cases p with
      | nil =>
        left
        rw [nodeAt] at hnode
        obtain rfl : HNode.elem t a cs = m := Option.some.inj hnode
        rw [if_pos hpred]
        simp
      | cons j q =>
        right
        rw [nodeAt] at hnode
        simp only [childrenOf] at hnode
        cases hget : cs.get? j with
        | none => rw [hget] at hnode; cases hnode
        | some c =>
          rw [hget] at hnode
          exact (mem_descML pred cs 0 ((j :: q), m)).mpr
            ⟨j, q, c, by rw [Nat.zero_add], hget, hnode, hpred⟩

theorem mem_descML (pred : HNode → Bool) :
    ∀ (cs : List HNode) (i : Nat) (pm : List Nat × HNode),
      (pm ∈ descML pred i cs ↔
        ∃ j q c, pm.1 = (i + j) :: q ∧ cs.get? j = some c ∧
          nodeAt c q = some pm.2 ∧ pred pm.2 = true)
  | [], i, pm => by simp [descML]
  | c :: rest, i, pm => by
    rw [descML, List.mem_append, List.mem_map]
    constructor
    · rintro (⟨pm0, hmem, hmap⟩ | h2)
      · obtain ⟨hnode, hpred⟩ := (mem_descM pred c pm0).mp hmem
        refine ⟨0, pm0.1, c, ?_, rfl, ?_, ?_⟩
        · rw [← hmap]; simp
        · rw [← hmap]; exact hnode
        · rw [← hmap]; exact hpred
      · obtain ⟨j, q, c', h1, h2', h3, h4⟩ := (mem_descML pred rest (i + 1) pm).mp h2
        refine ⟨j + 1, q, c', ?_, by simpa using h2', h3, h4⟩
        rw [h1]
        congr 1
        omega
    · rintro ⟨j, q, c', h1, h2', h3, h4⟩
      cases j with
      | zero =>
        left
        obtain rfl : c = c' := Option.some.inj (by simpa using h2')
        refine ⟨(q, pm.2), (mem_descM pred c (q, pm.2)).mpr ⟨h3, h4⟩, ?_⟩
        rcases pm with ⟨p, m⟩
        simp only at h1 ⊢
        rw [h1]
        simp
      | succ j' =>
        right
        refine (mem_descML pred rest (i + 1) pm).mpr ⟨j', q, c', ?_, by simpa using h2', h3, h4⟩
        rw [h1]
        congr 1
        omega

end

theorem descML_append (pred : HNode → Bool) :
    ∀ (cs ds : List HNode) (i : Nat),
      descML pred i (cs ++ ds) = descML pred i cs ++ descML pred (i + cs.length) ds := by
  intro cs
  induction cs with
  | nil => intro ds i; simp [descML]
  | cons c rest ih =>
    intro ds i
    have hidx : i + 1 + rest.length = i + (rest.length + 1) := by omega
    simp only [List.cons_append, descML, List.length_cons, List.append_assoc, hidx,
      List.append_eq]
    rw [ih, hidx]

/-- A path in a removal set has a head at least the starting child index. -/
theorem mem_descML_head (pred : HNode → Bool) (cs : List HNode) (i : Nat)
    (pm : List Nat × HNode) (h : pm ∈ descML pred i cs) :
    ∃ j q, pm.1 = j :: q ∧ i ≤ j := by
  obtain ⟨j, q, c, h1, _, _, _⟩ := (mem_descML pred cs i pm).mp h
  exact ⟨i + j, q, h1, Nat.le_add_right i j⟩

theorem descendRem_nil (i : Nat) : descendRem [] i = [] := rfl

theorem mem_descendRem (rem : List (List Nat)) (i : Nat) (q : List Nat) :
    q ∈ descendRem rem i ↔ (i :: q) ∈ rem := by
  constructor
  · intro h
    obtain ⟨p, hp, he⟩ := List.mem_filterMap.mp h
    cases p with
    | nil => simp at he
    | cons j q1 =>
      dsimp only at he
      by_cases hj : j = i
      · subst hj
        rw [if_pos rfl] at he
        obtain rfl := Option.some.inj he
        exact hp
      · rw [if_neg hj] at he; cases he
  · intro h
    exact List.mem_filterMap.mpr ⟨i :: q, h, by simp⟩

mutual

theorem rebuildN_id (frag : HNode) :
    ∀ (n : HNode), rebuildN frag none [] n = [n]
  | .elem t a cs => by
    rw [rebuildN]
    simp only [reduceCtorEq, if_false, List.contains_nil, Bool.false_eq_true, if_false]
    rw [rebuildL_id frag cs 0]

theorem rebuildL_id (frag : HNode) :
    ∀ (cs : List HNode) (i : Nat), rebuildL frag none [] i cs = cs
  | [], _ => rfl
  | c :: rest, i => by
    rw [rebuildL]
    show rebuildN frag (descendOpt none i) (descendRem [] i) c ++ rebuildL frag none [] (i + 1) rest
      = c :: rest
    rw [show descendOpt none i = none from rfl, descendRem_nil, rebuildN_id frag c,
      rebuildL_id frag rest (i + 1)]
    rfl

end

theorem isWidgetLi_eq (t : String) (a : List (String × String)) (cs : List HNode) :
    isWidgetLi (.elem t a cs) = (decide (t = "li") && cs.any surfDivMark) := rfl

mutual

theorem surf_rebuildN (frag : HNode) (hfrag : tagOf frag = "li") :
    ∀ (n : HNode) (fp : Option (List Nat)) (rem : List (List Nat)) (c' : HNode),
      c' ∈ rebuildN frag fp rem n → surfDivMark c' = true → surfDivMark n = true
  | .elem t a cs, fp, rem, c' => by
    intro hmem hsurf
    rw [rebuildN] at hmem
    split at hmem
    · obtain rfl : c' = frag := by simpa using hmem
      rw [surfDivMark, hfrag] at hsurf
      simp at hsurf
    · split at hmem
      · simp at hmem
      · obtain rfl : c' = HNode.elem t a (rebuildL frag fp rem 0 cs) := by simpa using hmem
        simpa [surfDivMark, tagOf, getAttr] using hsurf

theorem surf_rebuildL (frag : HNode) (hfrag : tagOf frag = "li") :
    ∀ (cs : List HNode) (fp : Option (List Nat)) (rem : List (List Nat)) (i : Nat),
      (rebuildL frag fp rem i cs).any surfDivMark = true → cs.any surfDivMark = true
  | [], _, _, _ => by intro h; simpa [rebuildL] using h
  | c :: rest, fp, rem, i => by
    intro h
    rw [rebuildL, List.any_append] at h
    rcases Bool.or_eq_true_iff.mp h with h1 | h2
    · obtain ⟨c', hc', hs⟩ := List.any_eq_true.mp h1
      have := surf_rebuildN frag hfrag c (descendOpt fp i) (descendRem rem i) c' hc' hs
      simp [this]
    · have := surf_rebuildL frag hfrag rest fp rem (i + 1) h2
      simp [List.any_cons, this]

end

/-- Rebuilding the children cannot make a non-widget element a widget: the
fragment is an `li`, kept children keep their tag and attributes, and removal
only drops children. -/
theorem isWidgetLi_rebuild (frag : HNode) (hfrag : tagOf frag = "li")
    (t : String) (a : List (String × String)) (cs : List HNode)
    (fp : Option (List Nat)) (rem : List (List Nat))
    (h : isWidgetLi (.elem t a (rebuildL frag fp rem 0 cs)) = true) :
    isWidgetLi (.elem t a cs) = true := by
  rw [isWidgetLi_eq] at h ⊢
  obtain ⟨ht, hany⟩ := Bool.and_eq_true_iff.mp h
  exact Bool.and_eq_true_iff.mpr ⟨ht, surf_rebuildL frag hfrag cs fp rem 0 hany⟩

/-- With all match ids equal, the removal loop removes exactly the matches
after the first. -/
theorem dedupeRemovedAux_const_id (v : Option String) :
    ∀ (ms : List (List Nat × HNode)) (seen : List (Option String)),
      (∀ pm ∈ ms, getAttr pm.2 "id" = v) → seen.contains v = true →
      dedupeRemovedAux seen ms = ms.map Prod.fst
  | [], _, _, _ => rfl
  | (p, n) :: rest, seen, hall, hseen => by
    rw [dedupeRemovedAux]
    have hv : getAttr n "id" = v := hall (p, n) (List.mem_cons_self _ _)
    rw [hv, if_pos hseen]
    rw [dedupeRemovedAux_const_id v rest seen
      (fun pm hpm => hall pm (List.mem_cons_of_mem _ hpm)) hseen]
    rfl

theorem dedupeRemoved_const_id (v : Option String) (p0 : List Nat) (m0 : HNode)
    (rest : List (List Nat × HNode))
    (hall : ∀ pm ∈ (p0, m0) :: rest, getAttr pm.2 "id" = v) :
    dedupeRemovedAux [] ((p0, m0) :: rest) = rest.map Prod.fst := by
  rw [dedupeRemovedAux]
  have hv : getAttr m0 "id" = v := hall (p0, m0) (List.mem_cons_self _ _)
  rw [hv]
  rw [if_neg (by simp)]
  exact dedupeRemovedAux_const_id v rest [v]
    (fun pm hpm => hall pm (List.mem_cons_of_mem _ hpm)) (by simp)

theorem descML_map_fst_cons (pred : HNode → Bool) (c : HNode) (rest : List HNode) (i0 : Nat) :
    (descML pred i0 (c :: rest)).map Prod.fst =
      ((descM pred c).map Prod.fst).map (fun p => i0 :: p) ++
        (descML pred (i0 + 1) rest).map Prod.fst := by
  rw [descML, List.map_append, List.map_map, List.map_map]
  rfl

theorem mem_descML_map_fst_form (pred : HNode → Bool) (cs : List HNode) (i0 : Nat)
    (x : List Nat) (h : x ∈ (descML pred i0 cs).map Prod.fst) :
    ∃ j q, x = j :: q ∧ i0 ≤ j := by
  obtain ⟨pm, hpm, rfl⟩ := List.mem_map.mp h
  exact mem_descML_head pred cs i0 pm hpm

theorem descM_elem_of_neg (pred : HNode → Bool) (t : String) (a : List (String × String))
    (cs : List HNode) (h : pred (.elem t a cs) = false) :
    descM pred (.elem t a cs) = descML pred 0 cs := by
  rw [descM, h]
  simp

theorem descM_elem_of_pos (pred : HNode → Bool) (t : String) (a : List (String × String))
    (cs : List HNode) (h : pred (.elem t a cs) = true) :
    descM pred (.elem t a cs) = ([], HNode.elem t a cs) :: descML pred 0 cs := by
  rw [descM, h]
  simp

mutual

theorem rebuildN_removeAll (frag : HNode) (hfrag : tagOf frag = "li") :
    ∀ (n : HNode) (rem : List (List Nat)),
      (∀ x, x ∈ rem ↔ x ∈ (descM isWidgetLi n).map Prod.fst) →
      ∀ i1, descML isWidgetLi i1 (rebuildN frag none rem n) = []
  | .elem t a cs, rem, hrem, i1 => by
    by_cases hW : isWidgetLi (.elem t a cs) = true
    · have hin : ([] : List Nat) ∈ rem := by
        rw [hrem, descM_elem_of_pos _ _ _ _ hW]
        simp
      rw [rebuildN, if_neg (by simp), if_pos (List.elem_iff.mpr hin)]
      rfl
    · have hW' : isWidgetLi (.elem t a cs) = false := Bool.eq_false_iff.mpr hW
      have hnotin : ([] : List Nat) ∉ rem := by
        rw [hrem, descM_elem_of_neg _ _ _ _ hW']
        intro hc
        obtain ⟨j, q, he, _⟩ := mem_descML_map_fst_form _ _ _ _ hc
        cases he
      rw [rebuildN, if_neg (by simp),
        if_neg (fun hc => hnotin (List.elem_iff.mp hc))]
      rw [descML, descML]
      show (descM isWidgetLi (.elem t a (rebuildL frag none rem 0 cs))).map
          (fun pm => (i1 :: pm.1, pm.2)) ++ [] = []
      have hW2 : isWidgetLi (.elem t a (rebuildL frag none rem 0 cs)) = false := by
        rw [Bool.eq_false_iff]
        intro hc
        exact hW (isWidgetLi_rebuild frag hfrag t a cs none rem hc)
      rw [descM_elem_of_neg _ _ _ _ hW2]
      rw [rebuildL_removeAll frag hfrag cs 0 none rem (by intro k q h; cases h)
        (by
          intro j q _
          rw [hrem, descM_elem_of_neg _ _ _ _ hW']) 0]
      rfl

theorem rebuildL_removeAll (frag : HNode) (hfrag : tagOf frag = "li") :
    ∀ (cs : List HNode) (i0 : Nat) (fp : Option (List Nat)) (rem : List (List Nat)),
      (∀ k q, fp = some (k :: q) → k < i0) →
      (∀ j q, i0 ≤ j → ((j :: q) ∈ rem ↔ (j :: q) ∈ (descML isWidgetLi i0 cs).map Prod.fst)) →
      ∀ i1, descML isWidgetLi i1 (rebuildL frag fp rem i0 cs) = []
  | [], _, _, _, _, _, _ => by rw [rebuildL]; rfl
  | c :: rest, i0, fp, rem, hfp, hrem, i1 => by
    rw [rebuildL, descML_append]
    have hopt : descendOpt fp i0 = none := by
      cases fp with
      | none => rfl
      | some p =>
        cases p with
        | nil => rfl
        | cons k q =>
          have := hfp k q rfl
          rw [descendOpt, if_neg (by omega)]
    have hchild : ∀ x, x ∈ descendRem rem i0 ↔ x ∈ (descM isWidgetLi c).map Prod.fst := by
      intro x
      rw [mem_descendRem, hrem i0 x (Nat.le_refl i0), descML_map_fst_cons, List.mem_append]
      constructor
      · rintro (h1 | h2)
        · obtain ⟨y, hy, he⟩ := List.mem_map.mp h1
          obtain rfl : y = x := by
            have := List.cons.inj he
            exact this.2
          exact hy
        · exfalso
          obtain ⟨j, q, he, hj⟩ := mem_descML_map_fst_form _ _ _ _ h2
          have := List.cons.inj he
          omega
      · intro h
        exact Or.inl (List.mem_map.mpr ⟨x, h, rfl⟩)
    rw [hopt]
    rw [rebuildN_removeAll frag hfrag c (descendRem rem i0) hchild i1]
    rw [rebuildL_removeAll frag hfrag rest (i0 + 1) fp rem
      (fun k q h => Nat.lt_succ_of_lt (hfp k q h))
      (by
        intro j q hj
        rw [hrem j q (by omega), descML_map_fst_cons, List.mem_append]
        constructor
        · rintro (h1 | h2)
          · exfalso
            obtain ⟨y, hy, he⟩ := List.mem_map.mp h1
            have := List.cons.inj he
            omega
          · exact h2
        · intro h
          exact Or.inr h)]
    rfl

end

mutual

theorem rebuildN_replaceFirst (frag : HNode) (hfrag : isWidgetLi frag = true)
    (hnest : descML isWidgetLi 0 (childrenOf frag) = []) :
    ∀ (n : HNode) (p : List Nat) (tailP rem : List (List Nat)),
      (descM isWidgetLi n).map Prod.fst = p :: tailP →
      (∀ x, x ∈ rem ↔ x ∈ tailP) →
      ∃ n', rebuildN frag (some p) rem n = [n'] ∧
        descM isWidgetLi n' = [(p, frag)]
  | .elem t a cs, p, tailP, rem, hfirst, hrem => by
    have htag : tagOf frag = "li" := by
      rcases frag with ⟨ft, fa, fcs⟩
      rw [isWidgetLi_eq] at hfrag
      obtain ⟨h1, _⟩ := Bool.and_eq_true_iff.mp hfrag
      simpa [tagOf] using of_decide_eq_true h1
    cases p with
    | nil =>
      refine ⟨frag, by rw [rebuildN, if_pos rfl], ?_⟩
      rcases hf : frag with ⟨ft, fa, fcs⟩
      have hfrag2 : isWidgetLi (HNode.elem ft fa fcs) = true := by rw [← hf]; exact hfrag
      have hnest2 : descML isWidgetLi 0 fcs = [] := by
        have h := hnest
        rw [hf] at h
        simpa [childrenOf] using h
      rw [descM, if_pos hfrag2, hnest2]
      simp
    | cons j q =>
      have hW' : isWidgetLi (.elem t a cs) = false := by
        rw [Bool.eq_false_iff]
        intro hW
        rw [descM_elem_of_pos _ _ _ _ hW] at hfirst
        simp only [List.map_cons] at hfirst
        cases (List.cons.inj hfirst).1
      rw [descM_elem_of_neg _ _ _ _ hW'] at hfirst
      have hnotin : ([] : List Nat) ∉ rem := by
        rw [hrem]
        intro hc
        have : ([] : List Nat) ∈ (descML isWidgetLi 0 cs).map Prod.fst := by
          rw [hfirst]
          exact List.mem_cons_of_mem _ hc
        obtain ⟨j', q', he, _⟩ := mem_descML_map_fst_form _ _ _ _ this
        cases he
      refine ⟨.elem t a (rebuildL frag (some (j :: q)) rem 0 cs), ?_, ?_⟩
      · rw [rebuildN, if_neg (by simp), if_neg (fun hc => hnotin (List.elem_iff.mp hc))]
      · have hW2 : isWidgetLi (.elem t a (rebuildL frag (some (j :: q)) rem 0 cs)) = false := by
          rw [Bool.eq_false_iff]
          intro hc
          rw [isWidgetLi_rebuild frag htag t a cs _ rem hc] at hW'
          cases hW'
        rw [descM_elem_of_neg _ _ _ _ hW2]
        exact rebuildL_replaceFirst frag hfrag hnest cs 0 j q tailP rem hfirst hrem

theorem rebuildL_replaceFirst (frag : HNode) (hfrag : isWidgetLi frag = true)
    (hnest : descML isWidgetLi 0 (childrenOf frag) = []) :
    ∀ (cs : List HNode) (i0 j : Nat) (q : List Nat) (tailP rem : List (List Nat)),
      (descML isWidgetLi i0 cs).map Prod.fst = (j :: q) :: tailP →
      (∀ x, x ∈ rem ↔ x ∈ tailP) →
      descML isWidgetLi i0 (rebuildL frag (some (j :: q)) rem i0 cs) = [((j : Nat) :: q, frag)]
  | [], i0, j, q, tailP, rem, hfirst, hrem => by
    rw [descML] at hfirst
    cases hfirst
  | c :: rest, i0, j, q, tailP, rem, hfirst, hrem => by
    have htag : tagOf frag = "li" := by
      rcases frag with ⟨ft, fa, fcs⟩
      rw [isWidgetLi_eq] at hfrag
      obtain ⟨h1, _⟩ := Bool.and_eq_true_iff.mp hfrag
      simpa [tagOf] using of_decide_eq_true h1
    rw [descML_map_fst_cons] at hfirst
    rw [rebuildL]
    cases hc : (descM isWidgetLi c).map Prod.fst with
    | nil =>
      rw [hc] at hfirst
      simp only [List.map_nil, List.nil_append] at hfirst
      have hj : i0 + 1 ≤ j := by
        have : (j :: q) ∈ (descML isWidgetLi (i0 + 1) rest).map Prod.fst := by
          rw [hfirst]
          exact List.mem_cons_self _ _
        obtain ⟨j', q', he, hj'⟩ := mem_descML_map_fst_form _ _ _ _ this
        obtain ⟨rfl, rfl⟩ := List.cons.inj he
        omega
      have hopt : descendOpt (some (j :: q)) i0 = none := by
        rw [descendOpt, if_neg (by omega)]
      have hremc : descendRem rem i0 = [] := by
        apply List.eq_nil_iff_forall_not_mem.mpr
        intro x hx
        have h1 := (mem_descendRem rem i0 x).mp hx
        have h2 : (i0 :: x) ∈ tailP := (hrem _).mp h1
        have h3 : (i0 :: x) ∈ (descML isWidgetLi (i0 + 1) rest).map Prod.fst := by
          rw [hfirst]
          exact List.mem_cons_of_mem _ h2
        obtain ⟨j', q', he, hj'⟩ := mem_descML_map_fst_form _ _ _ _ h3
        have := List.cons.inj he
        omega
      rw [hopt, hremc, rebuildN_id]
      rw [descML_append]
      simp only [List.length_cons, List.length_nil, Nat.zero_add]
      rw [rebuildL_replaceFirst frag hfrag hnest rest (i0 + 1) j q tailP rem hfirst hrem]
      rw [descML, descML]
      have hdescM : descM isWidgetLi c = [] := List.map_eq_nil.mp hc
      rw [hdescM]
      simp
    | cons p0 t0 =>
      rw [hc] at hfirst
      simp only [List.map_cons, List.cons_append] at hfirst
      obtain ⟨he, htail⟩ := List.cons.inj hfirst
      obtain ⟨rfl, rfl⟩ := List.cons.inj he
      have hremc : ∀ x, x ∈ descendRem rem i0 ↔ x ∈ t0 := by
        intro x
        rw [mem_descendRem, hrem, ← htail, List.mem_append]
        constructor
        · rintro (h1 | h2)
          · obtain ⟨y, hy, hey⟩ := List.mem_map.mp h1
            obtain rfl : y = x := (List.cons.inj hey).2
            exact hy
          · exfalso
            obtain ⟨j', q', he', hj'⟩ := mem_descML_map_fst_form _ _ _ _ h2
            have := List.cons.inj he'
            omega
        · intro h
          exact Or.inl (List.mem_map.mpr ⟨x, h, rfl⟩)
      obtain ⟨c', hcr, hcm⟩ := rebuildN_replaceFirst frag hfrag hnest c p0 t0
        (descendRem rem i0) hc hremc
      have hopt : descendOpt (some (i0 :: p0)) i0 = some p0 := by
        rw [descendOpt, if_pos rfl]
      rw [hopt, hcr, descML_append]
      rw [rebuildL_removeAll frag htag rest (i0 + 1) (some (i0 :: p0)) rem
        (by
          intro k q' hk
          obtain ⟨h1, _⟩ := List.cons.inj (Option.some.inj hk)
          omega)
        (by
          intro j' q' hj'
          rw [hrem, ← htail, List.mem_append]
          constructor
          · rintro (h1 | h2)
            · exfalso
              obtain ⟨y, hy, hey⟩ := List.mem_map.mp h1
              have := List.cons.inj hey
              omega
            · exact h2
          · intro h
            exact Or.inr h)]
      rw [descML, descML, hcm]
      simp

end

theorem rebuildL_inert (frag : HNode) :
    ∀ (cs : List HNode) (i0 : Nat) (fp : Option (List Nat)),
      (∀ k q, fp = some (k :: q) → k < i0) →
      rebuildL frag fp [] i0 cs = cs := by
  intro cs
  induction cs with
  | nil => intro i0 fp _; rfl
  | cons c rest ih =>
    intro i0 fp hfp
    rw [rebuildL]
    have hopt : descendOpt fp i0 = none := by
      cases fp with
      | none => rfl
      | some p =>
        cases p with
        | nil => rfl
        | cons k q =>
          have := hfp k q rfl
          rw [descendOpt, if_neg (by omega)]
    rw [hopt, descendRem_nil, rebuildN_id,
      ih (i0 + 1) fp (fun k q h => Nat.lt_succ_of_lt (hfp k q h))]
    rfl

mutual

theorem rebuildN_self (frag : HNode) :
    ∀ (n : HNode) (p : List Nat), nodeAt n p = some frag →
      rebuildN frag (some p) [] n = [n]
  | .elem t a cs, [] => by
    intro h
    have he : HNode.elem t a cs = frag := Option.some.inj h
    rw [rebuildN, if_pos rfl, he]
  | .elem t a cs, j :: q => by
    intro h
    rw [nodeAt] at h
    simp only [childrenOf] at h
    cases hg : cs.get? j with
    | none => rw [hg] at h; cases h
    | some c =>
      rw [hg] at h
      rw [rebuildN, if_neg (by simp), if_neg (by simp)]
      rw [rebuildL_self frag cs 0 j q c (Nat.zero_le j) (by simpa using hg) h]

theorem rebuildL_self (frag : HNode) :
    ∀ (cs : List HNode) (i0 j : Nat) (q : List Nat) (c : HNode),
      i0 ≤ j → cs.get? (j - i0) = some c → nodeAt c q = some frag →
      rebuildL frag (some (j :: q)) [] i0 cs = cs
  | [], i0, j, q, c => by
    intro _ hget _
    simp at hget
  | c0 :: rest, i0, j, q, c => by
    intro hle hget hnode
    rw [rebuildL]
    by_cases hj : j = i0
    · subst hj
      rw [Nat.sub_self] at hget
      have he : c0 = c := Option.some.inj (by simpa using hget)
      subst he
      rw [show descendOpt (some (j :: q)) j = some q from by rw [descendOpt]; rw [if_pos rfl]]
      rw [descendRem_nil]
      rw [rebuildN_self frag c0 q hnode]
      rw [rebuildL_inert frag rest (j + 1) (some (j :: q))
        (fun k q1 hk => by
          obtain ⟨h1, _⟩ := List.cons.inj (Option.some.inj hk)
          omega)]
      rfl
    · have hj2 : i0 + 1 ≤ j := by omega
      rw [show descendOpt (some (j :: q)) i0 = none from by
        rw [descendOpt]; rw [if_neg (by omega)]]
      rw [descendRem_nil]
      rw [rebuildN_id]
      have hget2 : rest.get? (j - (i0 + 1)) = some c := by
        have harith : j - i0 = (j - (i0 + 1)) + 1 := by omega
        rw [harith] at hget
        simpa using hget
      rw [rebuildL_self frag rest (i0 + 1) j q c hj2 hget2 hnode]
      rfl

end

theorem setChild_self : ∀ (j : Nat) (cs : List HNode) (c : HNode),
    cs.get? j = some c → setChild j cs c = cs
  | _, [], _ => by intro h; simp at h
  | 0, c0 :: rest, c => by
    intro h
    have he : c0 = c := Option.some.inj (by simpa using h)
    rw [setChild, he]
  | Nat.succ j, c0 :: rest, c => by
    intro h
    rw [setChild, setChild_self j rest c (by simpa using h)]

theorem setAt_self : ∀ (n : HNode) (p : List Nat) (x : HNode),
    nodeAt n p = some x → setAt n p x = n
  | n, [], x => fun h => (Option.some.inj h).symm
  | .elem t a cs, j :: q, x => by
    intro h
    rw [nodeAt] at h
    simp only [childrenOf] at h
    cases hg : cs.get? j with
    | none => rw [hg] at h; cases h
    | some c =>
      rw [hg] at h
      rw [setAt]
      simp only [hg]
      rw [setAt_self c q x h, setChild_self j cs c hg]

mutual

theorem fnb_nodeAt : ∀ (u : Bool) (n : HNode) (p : List Nat) (nb : HNode),
    fnb u n = some (p, nb) → nodeAt n p = some nb ∧ isNavbarUl nb = true
  | u, .elem t a cs, p, nb => by
    intro h
    rw [fnb] at h
    split at h
    next hcond =>
      obtain ⟨h1, h2⟩ := Prod.mk.injEq .. ▸ Option.some.inj h
      subst h1
      subst h2
      exact ⟨rfl, (Bool.and_eq_true_iff.mp hcond).2⟩
    next hcond =>
      obtain ⟨j, q, c, rfl, _, hget, hrec⟩ :=
        fnbL_nodeAt (u || isNavbarDiv (.elem t a cs)) 0 cs p nb h
      refine ⟨?_, hrec.2⟩
      rw [nodeAt]
      simp only [childrenOf]
      rw [show cs.get? j = some c from by simpa using hget]
      exact hrec.1

theorem fnbL_nodeAt : ∀ (u : Bool) (i0 : Nat) (cs : List HNode) (p : List Nat) (nb : HNode),
    fnbL u i0 cs = some (p, nb) →
    ∃ j q c, p = j :: q ∧ i0 ≤ j ∧ cs.get? (j - i0) = some c ∧
      (nodeAt c q = some nb ∧ isNavbarUl nb = true)
  | u, i0, [], p, nb => by intro h; rw [fnbL] at h; cases h
  | u, i0, c :: rest, p, nb => by
    intro h
    rw [fnbL] at h
    cases hc : fnb u c with
    | some pm =>
      rw [hc] at h
      obtain ⟨h1, h2⟩ := Prod.mk.injEq .. ▸ Option.some.inj h
      have hrec := fnb_nodeAt u c pm.1 pm.2 (by rw [hc])
      subst h2
      refine ⟨i0, pm.1, c, h1.symm, Nat.le_refl i0, by simp [Nat.sub_self], hrec⟩
    | none =>
      rw [hc] at h
      obtain ⟨j, q, c', rfl, hle, hget, hrec⟩ := fnbL_nodeAt u (i0 + 1) rest p nb h
      refine ⟨j, q, c', rfl, by omega, ?_, hrec⟩
      have harith : j - i0 = (j - (i0 + 1)) + 1 := by omega
      rw [harith]
      simpa using hget

end

mutual

theorem fnb_setAt : ∀ (u : Bool) (n : HNode) (p : List Nat) (nb nb' : HNode),
    fnb u n = some (p, nb) → isNavbarUl nb' = true →
    fnb u (setAt n p nb') = some (p, nb')
  | u, .elem t a cs, p, nb, nb' => by
    intro h hW
    obtain ⟨nt, na, ncs⟩ := nb'
    rw [fnb] at h
    split at h
    next hcond =>
      obtain ⟨h1, h2⟩ := Prod.mk.injEq .. ▸ Option.some.inj h
      subst h1
      rw [setAt, fnb, if_pos (by
        rw [Bool.and_eq_true_iff]
        exact ⟨(Bool.and_eq_true_iff.mp hcond).1, hW⟩)]
    next hcond =>
      cases p with
      | nil =>
        exfalso
        obtain ⟨j, q, c, he, _, _, _⟩ :=
          fnbL_nodeAt (u || isNavbarDiv (.elem t a cs)) 0 cs [] nb h
        cases he
      | cons j q =>
        obtain ⟨c, hle, hget, hstep⟩ :=
          fnbL_setAt (u || isNavbarDiv (.elem t a cs)) 0 cs j q nb (.elem nt na ncs) h hW
        rw [Nat.sub_zero] at hget hstep
        rw [setAt]
        simp only [childrenOf, hget]
        rw [fnb]
        rw [if_neg (by
          intro hcc
          exact hcond (by simpa [isNavbarUl, tagOf, classAttr, getAttr] using hcc))]
        simpa [isNavbarDiv, tagOf, getAttr] using hstep

theorem fnbL_setAt : ∀ (u : Bool) (i0 : Nat) (cs : List HNode) (j : Nat) (q : List Nat)
    (nb nb' : HNode),
    fnbL u i0 cs = some (j :: q, nb) → isNavbarUl nb' = true →
    ∃ c, i0 ≤ j ∧ cs.get? (j - i0) = some c ∧
      fnbL u i0 (setChild (j - i0) cs (setAt c q nb')) = some (j :: q, nb')
  | u, i0, [], j, q, nb, nb' => by intro h _; rw [fnbL] at h; cases h
  | u, i0, c :: rest, j, q, nb, nb' => by
    intro h hW
    rw [fnbL] at h
    cases hc : fnb u c with
    | some pm =>
      rw [hc] at h
      obtain ⟨pq, pnb⟩ := pm
      have h1 := Option.some.inj h
      have hj : i0 = j := (List.cons.inj (congrArg Prod.fst h1)).1
      have hq : pq = q := (List.cons.inj (congrArg Prod.fst h1)).2
      subst hj
      subst hq
      have hrec := fnb_setAt u c pq pnb nb' (by rw [hc]) hW
      refine ⟨c, Nat.le_refl _, by simp [Nat.sub_self], ?_⟩
      rw [Nat.sub_self]
      rw [setChild]
      rw [fnbL]
      rw [hrec]
    | none =>
      rw [hc] at h
      obtain ⟨c', hle, hget, hstep⟩ := fnbL_setAt u (i0 + 1) rest j q nb nb' h hW
      have harith : j - i0 = (j - (i0 + 1)) + 1 := by omega
      refine ⟨c', by omega, by rw [harith]; simpa using hget, ?_⟩
      rw [harith]
      rw [setChild]
      rw [fnbL, hc]
      exact hstep

end

theorem isNavbarUl_irrel (t : String) (a : List (String × String)) (cs cs' : List HNode) :
    isNavbarUl (.elem t a cs) = isNavbarUl (.elem t a cs') := rfl

theorem isWidgetLi_of_navbarUl (n : HNode) (h : isNavbarUl n = true) :
    isWidgetLi n = false := by
  rcases n with ⟨t, a, cs⟩
  simp only [isNavbarUl, tagOf, Bool.and_eq_true, decide_eq_true_eq] at h
  rw [isWidgetLi_eq]
  rw [h.1.1]
  simp

theorem mem_xpathDesc (pred : HNode → Bool) (n : HNode) (pm : List Nat × HNode) :
    pm ∈ xpathDesc pred n ↔
      ∃ j q c, pm.1 = j :: q ∧ (childrenOf n).get? j = some c ∧
        nodeAt c q = some pm.2 ∧ pred pm.2 = true := by
  rcases n with ⟨t, a, cs⟩
  rw [xpathDesc]
  rw [mem_descML]
  simp only [childrenOf, Nat.zero_add]

theorem xpathDesc_children_ne (pred : HNode → Bool) (n : HNode) (pm : List Nat × HNode)
    (h : pm ∈ xpathDesc pred n) : (childrenOf n).isEmpty = false := by
  obtain ⟨j, q, c, _, hget, _, _⟩ := (mem_xpathDesc pred n pm).mp h
  cases hcs : childrenOf n with
  | nil => rw [hcs] at hget; simp at hget
  | cons _ _ => rfl

theorem nodeAt_of_xpathDesc (pred : HNode → Bool) (n : HNode) (pm : List Nat × HNode)
    (h : pm ∈ xpathDesc pred n) : nodeAt n pm.1 = some pm.2 := by
  obtain ⟨j, q, c, hp, hget, hnode, _⟩ := (mem_xpathDesc pred n pm).mp h
  rcases n with ⟨t, a, cs⟩
  rw [hp, nodeAt]
  simp only [childrenOf] at hget ⊢
  rw [hget]
  exact hnode

theorem xpathDesc_swap_pred (pred1 pred2 : HNode → Bool) (n : HNode)
    (pm : List Nat × HNode) (h : pm ∈ xpathDesc pred1 n) (h2 : pred2 pm.2 = true) :
    pm ∈ xpathDesc pred2 n := by
  obtain ⟨j, q, c, hp, hget, hnode, _⟩ := (mem_xpathDesc pred1 n pm).mp h
  exact (mem_xpathDesc pred2 n pm).mpr ⟨j, q, c, hp, hget, hnode, h2⟩

/-- The insertion branch: appending the wrapped fragment to a navbar with no
existing widget matches produces exactly one match, the fragment, after the
last original child. -/
theorem xpathDesc_appendWrapped (navbar frag : HNode)
    (hfrag : isWidgetLi frag = true)
    (hnest : descML isWidgetLi 0 (childrenOf frag) = [])
    (hempty : xpathDesc isWidgetLi navbar = []) :
    xpathDesc isWidgetLi (appendWrapped navbar frag) =
      [([(childrenOf navbar).length, 0], frag)] := by
  rcases navbar with ⟨t, a, cs⟩
  rcases frag with ⟨ft, fa, fcs⟩
  rw [xpathDesc] at hempty
  have hnest2 : descML isWidgetLi 0 fcs = [] := by simpa [childrenOf] using hnest
  have hwrap : isWidgetLi (.elem "div" [] [HNode.elem ft fa fcs]) = false := by
    rw [isWidgetLi_eq]
    simp
  rw [appendWrapped, xpathDesc, descML_append, hempty]
  simp only [descML, List.nil_append, List.append_nil]
  rw [descM_elem_of_neg _ _ _ _ hwrap]
  simp only [descML, List.append_nil]
  rw [descM_elem_of_pos _ _ _ _ hfrag, hnest2]
  simp [childrenOf]

/-- A run of the injector on a page whose navbar holds exactly one widget
match, the fragment itself, succeeds and leaves the tree unchanged. -/
theorem insert_single_match_id (parseFrag : String → Option HNode) (m : String)
    (frag : HNode) (hpf : parseFrag m = some frag)
    (hfragc : (childrenOf frag).isEmpty = false)
    (hnav : isNavItemLi frag = true)
    (t1 : HNode) (navPath pf : List Nat) (nb1 : HNode)
    (hfind : find_navbar t1 = some (navPath, nb1))
    (hms : xpathDesc isWidgetLi nb1 = [(pf, frag)]) :
    insert_versions_dropdown parseFrag t1 m = some t1 := by
  have hmem : (pf, frag) ∈ xpathDesc isWidgetLi nb1 := by
    rw [hms]
    exact List.mem_singleton.mpr rfl
  have hchild : (childrenOf nb1).isEmpty = false := xpathDesc_children_ne _ _ _ hmem
  have hitems : (find_navbar_items nb1).isEmpty = false := by
    have : (pf, frag) ∈ xpathDesc isNavItemLi nb1 :=
      xpathDesc_swap_pred _ _ _ _ hmem hnav
    rw [find_navbar_items]
    cases hx : xpathDesc isNavItemLi nb1 with
    | nil => rw [hx] at this; cases this
    | cons _ _ => rfl
  obtain ⟨j, q, c, hp, hget, hnode, _⟩ := (mem_xpathDesc isWidgetLi nb1 (pf, frag)).mp hmem
  simp only at hp hget hnode
  have hrebuild : rebuildTop frag pf [] nb1 = nb1 := by
    rcases nb1 with ⟨t, a, cs⟩
    rw [rebuildTop, hp]
    simp only [childrenOf] at hget
    rw [rebuildL_self frag cs 0 j q c (Nat.zero_le j) (by simpa using hget) hnode]
  have hnode1 : nodeAt t1 navPath = some nb1 := (fnb_nodeAt false t1 navPath nb1 hfind).1
  rw [insert_versions_dropdown, hfind]
  simp only [hchild, Bool.false_eq_true, if_false, hitems, hpf, hfragc, hms]
  rw [show dedupeRemovedAux [] [(pf, frag)] = [] from by simp [dedupeRemovedAux]]
  rw [hrebuild, setAt_self t1 navPath nb1 hnode1]

/-- The dedupe-and-replace branch: when all matches beyond the first are
removed and the first is replaced by the fragment, the rebuilt navbar holds
exactly one match, the fragment, at the first match's original path. -/
theorem xpathDesc_rebuildTop (navbar frag : HNode)
    (hfrag : isWidgetLi frag = true)
    (hnest : descML isWidgetLi 0 (childrenOf frag) = [])
    (p0 : List Nat) (m0 : HNode) (rest : List (List Nat × HNode))
    (hms : xpathDesc isWidgetLi navbar = (p0, m0) :: rest) :
    xpathDesc isWidgetLi (rebuildTop frag p0 (rest.map Prod.fst) navbar) = [(p0, frag)] := by
  rcases navbar with ⟨t, a, cs⟩
  rw [xpathDesc] at hms
  have hfirst : (descML isWidgetLi 0 cs).map Prod.fst = p0 :: rest.map Prod.fst := by
    rw [hms]
    rfl
  obtain ⟨j, q, rfl, _⟩ :=
    mem_descML_map_fst_form isWidgetLi cs 0 p0
      (by rw [hfirst]; exact List.mem_cons_self _ _)
  rw [rebuildTop, xpathDesc]
  exact rebuildL_replaceFirst frag hfrag hnest cs 0 j q (rest.map Prod.fst) (rest.map Prod.fst)
    hfirst (fun x => Iff.rfl)

/-- The heart of the idempotence analysis: when the fragment is a well-formed
widget (a match itself, with no nested matches) and all existing matches on
the located navbar agree on their `id` attribute, a second run of the injector
on the output of a successful first run succeeds and changes nothing. -/
theorem insert_idempotent_core (parseFrag : String → Option HNode) (m : String)
    (frag : HNode) (hpf : parseFrag m = some frag)
    (hfrag : isWidgetLi frag = true)
    (hnest : descML isWidgetLi 0 (childrenOf frag) = [])
    (hnav : isNavItemLi frag = true)
    (t t1 : HNode) (hins : insert_versions_dropdown parseFrag t m = some t1)
    (hids : ∀ navPath navbar, find_navbar t = some (navPath, navbar) →
      ∃ v, ∀ pm ∈ xpathDesc isWidgetLi navbar, getAttr pm.2 "id" = v) :
    insert_versions_dropdown parseFrag t1 m = some t1 := by
  cases hfd : find_navbar t with
  | none =>
    rw [insert_versions_dropdown, hfd] at hins
    cases hins
  | some pmn =>
  obtain ⟨navPath, navbar⟩ := pmn
  have hWn : isNavbarUl navbar = true := (fnb_nodeAt false t navPath navbar hfd).2
  have hce : (childrenOf navbar).isEmpty = false := by
    cases h' : (childrenOf navbar).isEmpty
    · rfl
    · have heq : insert_versions_dropdown parseFrag t m = none := by
        rw [insert_versions_dropdown, hfd]
        simp [h']
      rw [heq] at hins
      cases hins
  have hni : (find_navbar_items navbar).isEmpty = false := by
    cases h' : (find_navbar_items navbar).isEmpty
    · rfl
    · have heq : insert_versions_dropdown parseFrag t m = none := by
        rw [insert_versions_dropdown, hfd]
        simp [hce, h']
      rw [heq] at hins
      cases hins
  have hfc : (childrenOf frag).isEmpty = false := by
    cases h' : (childrenOf frag).isEmpty
    · rfl
    · have heq : insert_versions_dropdown parseFrag t m = none := by
        rw [insert_versions_dropdown, hfd]
        simp [hce, hni, hpf, h']
      rw [heq] at hins
      cases hins
  cases hms : xpathDesc isWidgetLi navbar with
  | nil =>
    have hcomp : insert_versions_dropdown parseFrag t m =
        some (setAt t navPath (appendWrapped navbar frag)) := by
      rw [insert_versions_dropdown, hfd]
      simp only [hce, Bool.false_eq_true, if_false, hni, hpf, hfc, hms]
    rw [hcomp] at hins
    have ht1 := Option.some.inj hins
    have hW1 : isNavbarUl (appendWrapped navbar frag) = true := by
      rcases navbar with ⟨nt, na, ncs⟩
      rw [appendWrapped, isNavbarUl_irrel nt na _ ncs]
      exact hWn
    have hfind1 : find_navbar t1 = some (navPath, appendWrapped navbar frag) := by
      rw [← ht1]
      exact fnb_setAt false t navPath navbar _ hfd hW1
    exact insert_single_match_id parseFrag m frag hpf hfc hnav t1 navPath _ _ hfind1
      (xpathDesc_appendWrapped navbar frag hfrag hnest hms)
  | cons pm0 rest =>
    obtain ⟨p0, m0⟩ := pm0
    obtain ⟨v, hall⟩ := hids navPath navbar hfd
    have hdedupe : dedupeRemovedAux [] ((p0, m0) :: rest) = rest.map Prod.fst :=
      dedupeRemoved_const_id v p0 m0 rest (fun pm hpm => hall pm (by rw [hms]; exact hpm))
    have hcomp : insert_versions_dropdown parseFrag t m =
        some (setAt t navPath (rebuildTop frag p0 (rest.map Prod.fst) navbar)) := by
      rw [insert_versions_dropdown, hfd]
      simp only [hce, Bool.false_eq_true, if_false, hni, hpf, hfc, hms]
      rw [hdedupe]
    rw [hcomp] at hins
    have ht1 := Option.some.inj hins
    have hW1 : isNavbarUl (rebuildTop frag p0 (rest.map Prod.fst) navbar) = true := by
      rcases navbar with ⟨nt, na, ncs⟩
      rw [rebuildTop, isNavbarUl_irrel nt na _ ncs]
      exact hWn
    have hfind1 : find_navbar t1 =
        some (navPath, rebuildTop frag p0 (rest.map Prod.fst) navbar) := by
      rw [← ht1]
      exact fnb_setAt false t navPath navbar _ hfd hW1
    exact insert_single_match_id parseFrag m frag hpf hfc hnav t1 navPath _ _ hfind1
      (xpathDesc_rebuildTop navbar frag hfrag hnest p0 m0 rest hms)

/-- C9: on every failing file — unreadable content, unparseable content, or no
navigation container found — `process_single_html_file` returns `False` and
performs no write, leaving the file's content unmodified. -/
theorem claim_failure_no_write (parse : String → Option HNode) (serialize : HNode → String)
    (parseFrag : String → Option HNode) (content : Option String) (m : String)
    (h : content = none ∨ (∃ c, content = some c ∧ parse c = none) ∨
      (∃ c tree, content = some c ∧ parse c = some tree ∧ find_navbar tree = none)) :
    process_single_html_file parse serialize parseFrag content m = (false, none) := by
  rcases h with rfl | ⟨c, rfl, hp⟩ | ⟨c, tree, rfl, hp, hf⟩
  · rfl
  · simp only [process_single_html_file, hp]
  · simp only [process_single_html_file, hp, insert_versions_dropdown, hf]

theorem claim_failure_no_write_witness :
    process_single_html_file (fun s => if s = "good" then some pagePlain else none)
        serializeSimple (fun _ => some freshWidget) (some "bad") "m" = (false, none) ∧
      process_single_html_file (fun _ => some navLi) serializeSimple
        (fun _ => some freshWidget) (some "x") "m" = (false, none) :=
  ⟨claim_failure_no_write _ serializeSimple _ (some "bad") "m"
      (Or.inr (Or.inl ⟨"bad", rfl, by decide⟩)),
    claim_failure_no_write _ serializeSimple _ (some "x") "m"
      (Or.inr (Or.inr ⟨"x", navLi, rfl, rfl, by decide⟩))⟩

/-- C10: when the navigation container is found but holds no `li` with the
`nav-item` marker class, `insert_versions_dropdown` fails before consulting
the fragment ( the result is `none` for every `parseFrag`), and
`process_single_html_file` reports failure with no write. -/
theorem claim_no_nav_items (parse : String → Option HNode) (serialize : HNode → String)
    (parseFrag : String → Option HNode) (c m : String) (tree : HNode)
    (navPath : List Nat) (navbar : HNode)
    (hparse : parse c = some tree)
    (hfind : find_navbar tree = some (navPath, navbar))
    (hitems : (find_navbar_items navbar).isEmpty = true) :
    insert_versions_dropdown parseFrag tree m = none ∧
      process_single_html_file parse serialize parseFrag (some c) m = (false, none) := by
  have h1 : insert_versions_dropdown parseFrag tree m = none := by
    rw [insert_versions_dropdown, hfind]
    cases hce : (childrenOf navbar).isEmpty <;> simp [hce, hitems]
  exact ⟨h1, by simp only [process_single_html_file, hparse, h1]⟩

theorem claim_no_nav_items_witness :
    insert_versions_dropdown (fun _ => some freshWidget) noItemsPage "m" = none ∧
      process_single_html_file (fun _ => some noItemsPage) serializeSimple
        (fun _ => some freshWidget) (some "p") "m" = (false, none) :=
  claim_no_nav_items (fun _ => some noItemsPage) serializeSimple
    (fun _ => some freshWidget) "p" "m" noItemsPage [0] noItemsUl rfl (by decide) (by decide)

set_option maxRecDepth 40000 in
/-- C4 is refuted as stated: deduplication only removes a later match whose
`id` attribute was already seen, so two stale widgets with distinct ids leave
two widgets in the navbar after one run, not one. -/
theorem claim_dedupe_replace_counterexample :
    ((insert_versions_dropdown (fun _ => some freshWidget) pageMixedIds "m").bind
        (fun t1 => (find_navbar t1).map (fun pm => (xpathDesc isWidgetLi pm.2).length)))
      = some 2 ∧ (2 : Nat) ≠ 1 := by decide

/-- C4, amended: when all existing widget matches on the located navbar agree
on their `id` attribute (in particular when none carries an `id`), one run of
`insert_versions_dropdown` leaves exactly one widget in the container — the
freshly parsed fragment — at the first match's original position. -/
theorem claim_dedupe_replace (parseFrag : String → Option HNode) (m : String)
    (frag : HNode) (hpf : parseFrag m = some frag)
    (hfrag : isWidgetLi frag = true)
    (hnest : descML isWidgetLi 0 (childrenOf frag) = [])
    (tree t1 : HNode) (navPath : List Nat) (navbar : HNode)
    (hfd : find_navbar tree = some (navPath, navbar))
    (p0 : List Nat) (m0 : HNode) (rest : List (List Nat × HNode))
    (hms : xpathDesc isWidgetLi navbar = (p0, m0) :: rest)
    (v : Option String)
    (hall : ∀ pm ∈ xpathDesc isWidgetLi navbar, getAttr pm.2 "id" = v)
    (hins : insert_versions_dropdown parseFrag tree m = some t1) :
    ∃ navbar1, find_navbar t1 = some (navPath, navbar1) ∧
      xpathDesc isWidgetLi navbar1 = [(p0, frag)] := by
  have hWn : isNavbarUl navbar = true := (fnb_nodeAt false tree navPath navbar hfd).2
  have hce : (childrenOf navbar).isEmpty = false := by
    cases h' : (childrenOf navbar).isEmpty
    · rfl
    · have heq : insert_versions_dropdown parseFrag tree m = none := by
        rw [insert_versions_dropdown, hfd]
        simp [h']
      rw [heq] at hins
      cases hins
  have hni : (find_navbar_items navbar).isEmpty = false := by
    cases h' : (find_navbar_items navbar).isEmpty
    · rfl
    · have heq : insert_versions_dropdown parseFrag tree m = none := by
        rw [insert_versions_dropdown, hfd]
        simp [hce, h']
      rw [heq] at hins
      cases hins
  have hfc : (childrenOf frag).isEmpty = false := by
    cases h' : (childrenOf frag).isEmpty
    · rfl
    · have heq : insert_versions_dropdown parseFrag tree m = none := by
        rw [insert_versions_dropdown, hfd]
        simp [hce, hni, hpf, h']
      rw [heq] at hins
      cases hins
  have hdedupe : dedupeRemovedAux [] ((p0, m0) :: rest) = rest.map Prod.fst :=
    dedupeRemoved_const_id v p0 m0 rest (fun pm hpm => hall pm (by rw [hms]; exact hpm))
  have hcomp : insert_versions_dropdown parseFrag tree m =
      some (setAt tree navPath (rebuildTop frag p0 (rest.map Prod.fst) navbar)) := by
    rw [insert_versions_dropdown, hfd]
    simp only [hce, Bool.false_eq_true, if_false, hni, hpf, hfc, hms]
    rw [hdedupe]
  rw [hcomp] at hins
  have ht1 := Option.some.inj hins
  have hW1 : isNavbarUl (rebuildTop frag p0 (rest.map Prod.fst) navbar) = true := by
    rcases navbar with ⟨nt, na, ncs⟩
    rw [rebuildTop, isNavbarUl_irrel nt na _ ncs]
    exact hWn
  refine ⟨rebuildTop frag p0 (rest.map Prod.fst) navbar, ?_, ?_⟩
  · rw [← ht1]
    exact fnb_setAt false tree navPath navbar _ hfd hW1
  · exact xpathDesc_rebuildTop navbar frag hfrag hnest p0 m0 rest hms

theorem claim_dedupe_replace_witness :
    ∃ t1, insert_versions_dropdown (fun _ => some freshWidget) pageThreeWidgets "m" = some t1 ∧
      ∃ navbar1, find_navbar t1 = some ([0], navbar1) ∧
        xpathDesc isWidgetLi navbar1 = [([1], freshWidget)] :=
  ⟨_, rfl,
    claim_dedupe_replace (fun _ => some freshWidget) "m" freshWidget rfl (by decide) (by decide)
      pageThreeWidgets _ [0] (navbarUl [navLi, widgetLi [], widgetLi [], widgetLi []])
      (by decide) [1] (widgetLi []) [([2], widgetLi []), ([3], widgetLi [])] (by decide)
      none (by decide) rfl⟩

set_option maxRecDepth 100000 in
/-- C1 is refuted as stated: on a page holding two stale widgets with
distinct `id` attributes, the second run removes the widget the first run
left behind, so the two runs' outputs differ byte-wise. -/
theorem claim_injector_idempotent_counterexample :
    process_single_html_file cexParse serializeSimple (fun _ => some freshWidget)
        (some "p0") "m"
      = (true, some (doctypeStr ++ commentStr ++ serializeSimple pageMixedIds1)) ∧
      process_single_html_file cexParse serializeSimple (fun _ => some freshWidget)
          (some (doctypeStr ++ commentStr ++ serializeSimple pageMixedIds1)) "m"
        ≠ (true, some (doctypeStr ++ commentStr ++ serializeSimple pageMixedIds1)) := by
  constructor
  · decide
  · decide

/-- C1, amended: the two-run pipeline is idempotent provided the parse
capability round-trips the first run's output and all widget matches on the
initial page's navbar agree on their `id` attribute (in particular on any
page the tool itself produced, whose single widget carries no `id`): the
second invocation of `process_single_html_file` succeeds and writes back
byte-identical output. -/
theorem claim_injector_idempotent (parse : String → Option HNode)
    (serialize : HNode → String) (parseFrag : String → Option HNode)
    (c0 m : String) (frag : HNode)
    (hpf : parseFrag m = some frag) (hfrag : isWidgetLi frag = true)
    (hnest : descML isWidgetLi 0 (childrenOf frag) = [])
    (hnav : isNavItemLi frag = true)
    (t0 : HNode) (hparse : parse c0 = some t0)
    (hids : ∀ navPath navbar, find_navbar t0 = some (navPath, navbar) →
      ∃ v, ∀ pm ∈ xpathDesc isWidgetLi navbar, getAttr pm.2 "id" = v)
    (t1 : HNode) (hins1 : insert_versions_dropdown parseFrag t0 m = some t1)
    (hround : parse (doctypeStr ++ commentStr ++ serialize t1) = some t1) :
    process_single_html_file parse serialize parseFrag (some c0) m =
        (true, some (doctypeStr ++ commentStr ++ serialize t1)) ∧
      process_single_html_file parse serialize parseFrag
          (some (doctypeStr ++ commentStr ++ serialize t1)) m =
        (true, some (doctypeStr ++ commentStr ++ serialize t1)) := by
  have h2 : insert_versions_dropdown parseFrag t1 m = some t1 :=
    insert_idempotent_core parseFrag m frag hpf hfrag hnest hnav t0 t1 hins1 hids
  constructor
  · simp only [process_single_html_file, hparse, hins1]
  · simp only [process_single_html_file, hround, h2]

set_option maxRecDepth 100000 in
theorem claim_injector_idempotent_witness :
    process_single_html_file plainParse serializeSimple (fun _ => some freshWidget)
        (some "q0") "m"
      = (true, some (doctypeStr ++ commentStr ++ serializeSimple pagePlain1)) ∧
      process_single_html_file plainParse serializeSimple (fun _ => some freshWidget)
          (some (doctypeStr ++ commentStr ++ serializeSimple pagePlain1)) "m"
        = (true, some (doctypeStr ++ commentStr ++ serializeSimple pagePlain1)) :=
  claim_injector_idempotent plainParse serializeSimple (fun _ => some freshWidget) "q0" "m"
    freshWidget rfl (by decide) (by decide) (by decide) pagePlain (by decide)
    (by
      intro navPath navbar h
      rw [show find_navbar pagePlain = some ([0], navbarUl [navLi]) from by decide] at h
      obtain ⟨h1, h2⟩ := Prod.mk.injEq .. ▸ Option.some.inj h
      subst h1
      subst h2
      exact ⟨none, by decide⟩)
    pagePlain1 (by decide) (by decide)

